import Mathlib

/-!
Verification of the `wfiles` two-tier file-indexing engine.

This file gives a shallow embedding of the program's core components
(`src/fs.rs`, `src/hasher.rs`, `src/db.rs`, `src/stash.rs`, `src/dup_prune.rs`)
and proves/refutes the specification claims about them.

Modelling conventions:
* file contents are `List Nat` (byte lists);
* the fast and strong hash functions (xxh3 / MD5 / SHA512, all external
  libraries) are abstract parameters `List Nat → String`: the model tracks
  exactly which bytes are fed to a hasher between `finish` calls and applies
  the abstract function to that byte sequence;
* a Rust `panic!`/`expect` is an `Except.error` carrying the panic message;
* the filesystem is an immutable partial map from full path strings to files;
* machine integers (`u64`, `usize`) are `Nat`; no arithmetic in the modelled
  code paths can overflow on the inputs considered.
-/

namespace WFiles

/-- A regular file as seen through an open handle.  `content` is the byte
content; `failAt = some k` means any `read(2)` issued at an offset `≥ k`
fails with an I/O error (`failAt = none`: all reads succeed). -/
structure RFile where
  content : List Nat
  failAt : Option Nat
deriving DecidableEq, Repr

/-- Does a read starting at offset `pos` fail on this file? -/
def RFile.readFails (f : RFile) (pos : Nat) : Bool :=
  match f.failAt with
  | some k => k ≤ pos
  | none => false

/-- One `f.read(buf)` (src/fs.rs:103): the bytes delivered into a buffer of
size `bufsz` at offset `pos`. -/
def readChunk (f : RFile) (bufsz pos : Nat) : List Nat :=
  (f.content.drop pos).take bufsz

/-- The buffered-read loop of `FileHasher::hash_filehandle` (src/fs.rs:98-111),
structurally recursive on a fuel argument (the caller supplies more fuel than
the loop can ever consume, so the fuel-out branch is unreachable):
repeatedly `read` into a buffer of size `bufsz`, feeding each filled prefix to
the hasher; stop when a read returns 0 bytes or returns exactly `file_size`
bytes.  Returns the bytes fed to the hasher and the final file offset; a
failing `read` is the `expect("error reading file!")` panic. -/
def readLoopF : Nat → RFile → Nat → Nat → Nat → List Nat →
    Except String (List Nat × Nat)
  | 0, _, _, _, _, _ => .error "unreachable: read loop fuel exhausted"
  | fuel + 1, f, bufsz, file_size, pos, acc =>
    if f.readFails pos then
      .error "error reading file!"
    else if (readChunk f bufsz pos).length = 0 then
      .ok (acc, pos)
    else if (readChunk f bufsz pos).length = file_size then
      .ok (acc ++ readChunk f bufsz pos, pos + (readChunk f bufsz pos).length)
    else
      readLoopF fuel f bufsz file_size (pos + (readChunk f bufsz pos).length)
        (acc ++ readChunk f bufsz pos)

/-- The read loop with sufficient fuel: each iteration either finishes or
advances the offset by at least one byte within the content, so
`f.content.length + 1` iterations always suffice. -/
def readLoopGo (f : RFile) (bufsz file_size : Nat) (pos : Nat) (acc : List Nat) :
    Except String (List Nat × Nat) :=
  readLoopF (f.content.length + 1) f bufsz file_size pos acc

/-- Per-file driver `FileHasher::hash_filehandle` (src/fs.rs:74-115).
`mmapOk` models whether the attempted read-only memory map of the whole file
succeeds.  The mmap path feeds the entire content to the hasher and leaves
the handle's offset unchanged; otherwise the buffered loop runs from the
handle's current offset.  Returns the hex digest (the abstract hash of the
bytes fed) and the handle's new offset. -/
def hash_filehandle (h : List Nat → String) (force_read mmapOk : Bool)
    (bufsz : Nat) (f : RFile) (pos : Nat) (file_size : Nat) :
    Except String (String × Nat) :=
  if !force_read && mmapOk then
    .ok (h f.content, pos)
  else
    match readLoopGo f bufsz file_size pos [] with
    | .error e => .error e
    | .ok (bytes, pos') => .ok (h bytes, pos')

/-- The platform path separator (`std::path::MAIN_SEPARATOR` on Unix). -/
def sep : String := "/"

/-- `FileHasher::hash_dbentry` (src/fs.rs:117-126): re-open the file at
`path + separator + fname` and hash it with the declared `file_size`.
A failing `File::open` is an `Err` returned to the caller
(`trigger_slowhashing` turns it into the
`expect("error while accessing file for triggered slowhashing")` panic,
which we carry as the error message here). -/
def hash_dbentry (h : List Nat → String) (force_read mmapOk : Bool)
    (bufsz : Nat) (fs : String → Option RFile) (path fname : String)
    (file_size : Nat) : Except String String :=
  match fs (path ++ sep ++ fname) with
  | none => .error "error while accessing file for triggered slowhashing"
  | some f =>
    match hash_filehandle h force_read mmapOk bufsz f 0 file_size with
    | .error e => .error e
    | .ok (d, _) => .ok d

/-- Strip trailing path separators from a (reversed-aware) character list. -/
def rstripSep (l : List Char) : List Char :=
  ((l.reverse.dropWhile (fun c => c == '/')).reverse)

/-- `std::path::Path::parent` on Unix, at the level of the textual path
(for paths without `.` / `..` components): drop the last component.
`none` for the empty path and for the root. -/
def rustParent (s : String) : Option String :=
  let t := rstripSep s.data
  if t = [] then
    none
  else
    let r := t.reverse
    let before := r.dropWhile (fun c => c ≠ '/')
    if before = [] then
      some ⟨[]⟩
    else
      let parentRev := before.dropWhile (fun c => c == '/')
      if parentRev = [] then some ⟨['/']⟩ else some ⟨parentRev.reverse⟩

/-- `std::path::Path::file_name` on Unix, textual level (paths without
`.` / `..` components): the final component, `none` for root/empty paths. -/
def rustFileName (s : String) : Option String :=
  let t := rstripSep s.data
  if t = [] then none
  else some ⟨(t.reverse.takeWhile (fun c => c ≠ '/')).reverse⟩

/-- One row of the `files` table (src/db.rs:63-71).  `rowid` is SQLite's
implicit rowid; fingerprints are the nullable hex-text columns. -/
structure FileRow where
  rowid : Nat
  path : String
  fname : String
  fasthash : Option String
  slowhash : Option String
  size : Nat
deriving DecidableEq, Repr

/-- The `UPDATE files set slowhash=? where rowid=?` statement
(src/db.rs:186-187). -/
def updateSlowhash (db : List FileRow) (rowid : Nat) (digest : String) :
    List FileRow :=
  db.map (fun r => if r.rowid = rowid then { r with slowhash := some digest } else r)

/-- `CheckCollisionStatement::collision` together with
`trigger_slowhashing` (src/db.rs:191-212): probe
`SELECT rowid, path, fname, size from files where fasthash = ?` for the first
matching row (SQLite returns equal-key index entries in rowid order, which is
insertion order here); if one exists, recompute its strong digest from disk
via `hash_dbentry` — any failure there is an `expect` panic — and write it to
that row's `slowhash`.  Returns the updated table, the list of
`(rowid, digest)` update events performed, and whether a collision was found. -/
def collision (strongH : List Nat → String) (force_read mmapOk : Bool)
    (bufsz : Nat) (fs : String → Option RFile) (db : List FileRow)
    (fasthash : String) :
    Except String (List FileRow × List (Nat × String) × Bool) :=
  match db.find? (fun r => r.fasthash == some fasthash) with
  | none => .ok (db, [], false)
  | some r =>
    match hash_dbentry strongH force_read mmapOk bufsz fs r.path r.fname r.size with
    | .error e => .error e
    | .ok digest => .ok (updateSlowhash db r.rowid digest, [(r.rowid, digest)], true)

/-- `FileInsertStatement::add_file` (src/db.rs:234-240) as it acts on the
table: split the walked path into `parent()` and `file_name()` (each `unwrap`
is a panic), and insert the row; a SQL failure of the `INSERT` (in particular
a `(medium_id, path, fname)` primary-key conflict) is the
`panic!("INSERT for file ...")`.  The fresh rowid is one past the table size. -/
def addFileRow (db : List FileRow) (p : String) (fasthash slowhash : Option String)
    (size : Nat) : Except String (List FileRow) :=
  match rustParent p, rustFileName p with
  | some dir, some name =>
    if db.any (fun r => r.path == dir && r.fname == name) then
      .error ("INSERT for file " ++ p)
    else
      .ok (db ++ [{ rowid := db.length + 1, path := dir, fname := name,
                    fasthash := fasthash, slowhash := slowhash, size := size }])
  | _, _ => .error ("INSERT for file " ++ p)

/-- Invocation configuration of one `stash` indexing pass, as far as the
hashing core sees it: the `-l` (only slow hash), `-r` (force `read(2)`) modes,
whether memory maps succeed in this environment, and the read-buffer size. -/
structure Cfg where
  only_slowhash : Bool
  force_read : Bool
  mmapOk : Bool
  bufsz : Nat
deriving DecidableEq, Repr

/-- Result of `hash_and_store` on one directory entry: either the file was
skipped because `File::open` failed (diagnostic on stderr, pass continues),
or a row was stored, yielding the new table and the lazy-promotion update
events that happened first. -/
inductive StoreOutcome where
  | skipped
  | stored (db : List FileRow) (events : List (Nat × String))
deriving DecidableEq, Repr

/-- The `hash_and_store` closure of `StashOperation::do_operation`
(src/stash.rs:95-124).  Opens the walked file (open failure: report and
skip); reads its size; computes the fast digest unless in `-l` mode (note the
strong hash is then computed *on the same handle*, whose offset the fast hash
may have advanced); probes for a fast-fingerprint collision, which lazily
promotes the first colliding row; and inserts the new row.  Any `expect`
panic aborts (error). -/
def hash_and_store (fastH strongH : List Nat → String) (cfg : Cfg)
    (fs : String → Option RFile) (db : List FileRow) (p : String) :
    Except String StoreOutcome :=
  match fs p with
  | none => .ok .skipped
  | some f =>
    if cfg.only_slowhash then
      match hash_filehandle strongH cfg.force_read cfg.mmapOk cfg.bufsz f 0 f.content.length with
      | .error e => .error e
      | .ok (s, _) =>
        match addFileRow db p none (some s) f.content.length with
        | .error e => .error e
        | .ok db' => .ok (.stored db' [])
    else
      match hash_filehandle fastH cfg.force_read cfg.mmapOk cfg.bufsz f 0 f.content.length with
      | .error e => .error e
      | .ok (q, pos₁) =>
        match collision strongH cfg.force_read cfg.mmapOk cfg.bufsz fs db q with
        | .error e => .error e
        | .ok (db₁, events, collided) =>
          if collided then
            match hash_filehandle strongH cfg.force_read cfg.mmapOk cfg.bufsz f pos₁ f.content.length with
            | .error e => .error e
            | .ok (s, _) =>
              match addFileRow db₁ p (some q) (some s) f.content.length with
              | .error e => .error e
              | .ok db' => .ok (.stored db' events)
          else
            match addFileRow db₁ p (some q) none f.content.length with
            | .error e => .error e
            | .ok db' => .ok (.stored db' events)

/-- One indexing pass over a list of walked regular files (the `FileVisitor`
loop of src/fs.rs:25-55 applied to `hash_and_store`), threading the `files`
table and accumulating the lazy-promotion update events.  An `Except.error`
is a panic aborting the pass (the transaction is then never committed). -/
def indexFiles (fastH strongH : List Nat → String) (cfg : Cfg)
    (fs : String → Option RFile) :
    List FileRow → List (Nat × String) → List String →
    Except String (List FileRow × List (Nat × String))
  | db, log, [] => .ok (db, log)
  | db, log, p :: ps =>
    match hash_and_store fastH strongH cfg fs db p with
    | .error e => .error e
    | .ok .skipped => indexFiles fastH strongH cfg fs db log ps
    | .ok (.stored db' events) => indexFiles fastH strongH cfg fs db' (log ++ events) ps

/-- The implementation's schema version (src/db.rs:13): major byte `0x01`,
minor byte `0x00`. -/
def DB_VERSION : Nat := 0x0100

/-- `DataBase::is_compatible` (src/db.rs:30-32): the stored version's major
byte must equal the implementation's. -/
def is_compatible (file_version : Nat) : Bool :=
  (file_version &&& 0xff00) == (DB_VERSION &&& 0xff00)

/-- The three config values persisted at catalogue creation
(src/db.rs:45-48). -/
structure StashConfig where
  version : Nat
  force_sha512 : Bool
  only_slowhash : Bool
deriving DecidableEq, Repr

/-- `DataBase::new` (src/db.rs:106-136), the writable open-or-create path.
`existing = none` models an absent or never-initialised catalogue file;
`existing = some c` an initialised one storing config `c`.  With the
overwrite flag the file is deleted first.  On a fresh store the schema is
installed with the invocation's flags; otherwise the stored config is gated:
incompatible version or differing mode flags panic before any mutation.
Returns the catalogue's effective config. -/
def DataBase_new (existing : Option StashConfig)
    (force_db_overwrite force_sha512 only_slowhash : Bool) :
    Except String StashConfig :=
  match (if force_db_overwrite then none else existing) with
  | none => .ok ⟨DB_VERSION, force_sha512, only_slowhash⟩
  | some c =>
    if !is_compatible c.version then
      .error "stash file cannot be processed by this version of wfiles"
    else if force_sha512 != c.force_sha512 then
      .error "stash file was generated under different force_sha512 setting (see -s option)"
    else if only_slowhash != c.only_slowhash then
      .error "stash file was generated under different only_slowhash setting (see -l option)"
    else .ok c

/-- Remove consecutive duplicates, as Rust's `Vec::dedup` does (after a sort
this is a full deduplication). -/
def dedupConsec {α : Type} [DecidableEq α] : List α → List α
  | [] => []
  | [a] => [a]
  | a :: b :: rest =>
    if a = b then dedupConsec (b :: rest) else a :: dedupConsec (b :: rest)

/-- String-order decidability routed through the character list, so that
sorting evaluates by kernel reduction (the default `String.decidableLE` is
compiled via the opaque `String.ltb`). -/
instance (priority := 1001) strDecLE : DecidableRel (fun a b : String => a ≤ b) :=
  fun a b => decidable_of_iff (a.toList ≤ b.toList) String.le_iff_toList_le.symm

/-- Sort a list of strings (the model orders strings by Lean's `String`
linear order; the source sorts `PathBuf`s, a total order as well). -/
def sortStrings (l : List String) : List String :=
  List.insertionSort (fun a b => a ≤ b) l

/-- `db.rs`'s duplicate-group record (src/db.rs:267-273). -/
structure DupFile where
  one_path : String
  other_paths : List String
  hash : String
  num_dups : Nat
  size : Nat
deriving DecidableEq, Repr

/-- Parent directory of a path in a duplicate group:
`PathBuf::from(p).parent().unwrap_or("/")` (src/db.rs:297-299). -/
def dirOf (p : String) : String :=
  (rustParent p).getD sep

/-- `DupFile::path_sig` (src/db.rs:295-315): collect the parent directory of
the pivot path and of every alternate path, sort, remove consecutive
duplicates, and join with commas.  The same computation is inlined in
`pick_dups_for_rules` and `collect_dup_path_rules`
(src/dup_prune.rs:127-146, 164-179); `sigDirs` is the list before joining. -/
def sigDirs (d : DupFile) : List String :=
  dedupConsec (sortStrings (dirOf d.one_path :: d.other_paths.map dirOf))

/-- `new_vec.join(",")`: serialise a directory list as the canonical
comma-joined signature key. -/
def joinKey (l : List String) : String :=
  String.intercalate "," l

/-- The comma-joined directory signature key (see `sigDirs`). -/
def DupFile.path_sig (d : DupFile) : String :=
  joinKey (sigDirs d)

/-- Number of `files` rows carrying the given non-null strong fingerprint
(the `COUNT(*)` of the aggregate subquery in src/db.rs:328-329). -/
def countHash (db : List FileRow) (h : String) : Nat :=
  (db.filter (fun r => r.slowhash == some h)).length

/-- The strong fingerprints selected by the aggregate subquery of
`IdentifyDupsStatement` (src/db.rs:328-329): the distinct non-null
`slowhash` values shared by more than one row, in ascending order
(`GROUP BY slowhash HAVING COUNT(*) > 1 ORDER BY slowhash`). -/
def dupHashes (db : List FileRow) : List String :=
  (dedupConsec (sortStrings (db.filterMap (fun r => r.slowhash)))).filter
    (fun h => 1 < countHash db h)

/-- One result row of the duplicate query (src/db.rs:327-330): directory,
name, strong fingerprint, group cardinality `P`, size. -/
structure QRow where
  path : String
  fname : String
  slowhash : String
  p : Nat
  size : Nat
deriving DecidableEq, Repr

/-- The `files` rows joined against one fingerprint of the aggregate
subquery, in rowid order, projected to the query's five columns. -/
def groupRows (db : List FileRow) (h : String) : List QRow :=
  (db.filter (fun r => r.slowhash == some h)).map (fun r =>
    { path := r.path, fname := r.fname, slowhash := h,
      p := countHash db h, size := r.size })

/-- The result rows of `IdentifyDupsStatement`'s query (src/db.rs:326-331),
modelled by iterating the ordered, materialised subquery and emitting the
joined `files` rows of each fingerprint in rowid order (the query itself has
no outer `ORDER BY`; the model fixes the order its `ORDER BY slowhash`
subquery induces, which is what `get_dups`'s consumption logic relies on). -/
def dupQueryRows (db : List FileRow) : List QRow :=
  (dupHashes db).flatMap (groupRows db)

/-- `v.last_mut().unwrap().other_paths.push(p)` (src/db.rs:363-368): append
a path to the last group's alternates. -/
def appendToLast : List DupFile → String → List DupFile
  | [], _ => []
  | [d], p => [{ d with other_paths := d.other_paths ++ [p] }]
  | d :: rest, p => d :: appendToLast rest p

/-- The row-consumption loop of `IdentifyDupsStatement::get_dups`
(src/db.rs:335-376): at the start of a duplicate set, open a new group from
the row (pivot path `directory + separator + name`, cardinality, hash, size)
and expect `cardinality - 1` further rows; otherwise append the row's path to
the current group's alternates, counting down. -/
def getDupsGo : List QRow → Bool → Nat → List DupFile → List DupFile
  | [], _, _, v => v
  | row :: rest, start, remaining, v =>
    if start then
      getDupsGo rest false (row.p - 1)
        (v ++ [{ one_path := row.path ++ sep ++ row.fname, other_paths := [],
                 hash := row.slowhash, num_dups := row.p, size := row.size }])
    else
      let v' := appendToLast v (row.path ++ sep ++ row.fname)
      if remaining - 1 = 0 then getDupsGo rest true (remaining - 1) v'
      else getDupsGo rest false (remaining - 1) v'

/-- `IdentifyDupsStatement::get_dups` (src/db.rs:335-376). -/
def get_dups (rows : List QRow) : List DupFile :=
  getDupsGo rows true 0 []

/-- The keep-strategy taxonomy (src/dup_prune.rs:11-18). -/
inductive KeepStrategy where
  | KEEP_AS_IS
  | KEEP_THIS_OF_THESE (idx : Nat)
  | KEEP_THIS_OF_ANY (idx : Nat)
  | KEEP_ANY_ONE
  | KEEP_OLDEST
  | KEEP_NEWEST
deriving DecidableEq, Repr

/-- Numeric value of a digit run. -/
def digitsToNat (l : List Char) : Nat :=
  l.foldl (fun a c => a * 10 + (c.toNat - '0'.toNat)) 0

/-- Match the regex `^x ([0-9]+)` (for `x` the given letter) against a choice
string and extract the captured integer (src/dup_prune.rs:48-49, 57, 63):
the letter, a space, then at least one digit; the capture is the maximal
digit run. -/
def matchLetterIdx (letter : Char) : List Char → Option Nat
  | c :: c2 :: d :: rest =>
    if c = letter && c2 = ' ' && d.isDigit then
      some (digitsToNat ((d :: rest).takeWhile Char.isDigit))
    else none
  | _ => none

/-- First character of a choice string, for the single-letter regexes
`^a`, `^d`, `^e`, `^f`. -/
def headChar (s : List Char) : Char :=
  s.headD ' '

/-- The regex cascade of `KeepStrategy::from_str` (src/dup_prune.rs:47-79):
try the choice against the six anchored regexes in order, bounding a
captured index by `max_idx` (indices exceeding it are errors — note the
code checks only `idx > max_idx`, no lower bound); an unmatched choice
falls back to the default, or errors without one. -/
def keepParse (s : List Char) (max_idx : Nat) (default : Option KeepStrategy) :
    Except String KeepStrategy :=
  if headChar s = 'a' then .ok .KEEP_AS_IS
  else match matchLetterIdx 'b' s with
  | some idx =>
    if idx > max_idx then .error "Invalid index for Keep This of These strategy"
    else .ok (.KEEP_THIS_OF_THESE idx)
  | none => match matchLetterIdx 'c' s with
    | some idx =>
      if idx > max_idx then .error "Invalid index for Keep This Of Any strategy"
      else .ok (.KEEP_THIS_OF_ANY idx)
    | none =>
      if headChar s = 'd' then .ok .KEEP_ANY_ONE
      else if headChar s = 'e' then .ok .KEEP_OLDEST
      else if headChar s = 'f' then .ok .KEEP_NEWEST
      else match default with
      | none => .error "No default keep strategy set"
      | some t => .ok t

/-- `KeepStrategy::from_str` (src/dup_prune.rs:35-80): reject `KeepNamed*`
defaults up front (src/dup_prune.rs:38-45), then run the regex cascade. -/
def keep_from_str (s : List Char) (max_idx : Nat) (default : Option KeepStrategy) :
    Except String KeepStrategy :=
  match default with
  | some (.KEEP_THIS_OF_THESE _) =>
    .error "Cannot use keep this of these rule as default rule"
  | some (.KEEP_THIS_OF_ANY _) =>
    .error "Cannot use keep this of any rule as default rule"
  | _ => keepParse s max_idx default

/-- A directory-signature prune rule (src/dup_prune.rs:83-86). -/
structure DirBasedPruneRule where
  verdict : KeepStrategy
  paths : List String
deriving DecidableEq, Repr

/-- The loop of `pick_dups_for_rules` (src/dup_prune.rs:122-156): for each
group compute its deduplicated directory list; skip it if that list has
length 1; skip it if its comma-joined key was already seen (the `HashSet`
is modelled by list membership); otherwise retain the group. -/
def pickDupsGo : List DupFile → List String → List DupFile → List DupFile
  | [], _, acc => acc
  | d :: rest, seen, acc =>
    if (sigDirs d).length = 1 then
      pickDupsGo rest seen acc
    else if joinKey (sigDirs d) ∈ seen then
      pickDupsGo rest seen acc
    else
      pickDupsGo rest (joinKey (sigDirs d) :: seen) (acc ++ [d])

/-- `pick_dups_for_rules` (src/dup_prune.rs:122-156). -/
def pick_dups_for_rules (dups : List DupFile) : List DupFile :=
  pickDupsGo dups [] []

/-- `collect_dup_path_rules` (src/dup_prune.rs:158-201): for each retained
representative (1-based prompt index `idx`), recompute its signature, obtain
the user's choice string from the injected `choices` provider (the model's
stand-in for `io::stdin().read_line`), parse it with default `KEEP_AS_IS`
(the `unwrap` of a parse error is a panic), and insert
`key → (verdict, directory list)` into the insertion-ordered map (modelled
as an association list; the keys inserted are pairwise distinct, so
insertion is appending). -/
def collectGo (choices : Nat → List Char) :
    List DupFile → Nat → List (String × DirBasedPruneRule) →
    Except String (List (String × DirBasedPruneRule))
  | [], _, acc => .ok acc
  | c :: rest, idx, acc =>
    match keep_from_str (choices idx) (sigDirs c).length (some .KEEP_AS_IS) with
    | .error e => .error e
    | .ok verdict =>
      collectGo choices rest (idx + 1)
        (acc ++ [(joinKey (sigDirs c), { verdict := verdict, paths := sigDirs c })])

/-- `collect_dup_path_rules` (src/dup_prune.rs:158-201) with an injected
decision provider. -/
def collect_dup_path_rules (choices : Nat → List Char) (dups : List DupFile) :
    Except String (List (String × DirBasedPruneRule)) :=
  collectGo choices (pick_dups_for_rules dups) 1 []

/-- A filesystem path as `std::path::Path` sees it on Unix, for paths without
`.` / `..` components: a root flag and the list of normal components.  Each
component is an `OsStr`, i.e. arbitrary bytes; `some s` is a component whose
bytes decode as the UTF-8 string `s`, `none` a component whose bytes are not
valid UTF-8 (so `to_str()` on it, or on any path containing it, returns
`None`). -/
structure RustPath where
  absolute : Bool
  comps : List (Option String)
deriving DecidableEq, Repr

/-- `Path::parent`: drop the final component; `None` when the path is a bare
root or empty. -/
def RustPath.parentP (p : RustPath) : Option RustPath :=
  if p.comps = [] then none else some ⟨p.absolute, p.comps.dropLast⟩

/-- `Path::file_name`: the final component, if any. -/
def RustPath.fileNameP (p : RustPath) : Option (Option String) :=
  p.comps.getLast?

/-- `Path::to_str`: the whole path rendered as UTF-8 text, `None` if any
component's bytes are not valid UTF-8. -/
def RustPath.toStrP (p : RustPath) : Option String :=
  if p.comps.all Option.isSome then
    some ((if p.absolute then sep else "") ++
      String.intercalate sep (p.comps.map (fun c => c.getD "")))
  else none

/-- The argument extraction of `FileInsertStatement::add_file`
(src/db.rs:234-240): `fm.path.parent().unwrap().to_str().unwrap()` and
`fm.path.file_name().unwrap().to_str().unwrap()`.  Each `unwrap` of a `None`
is a panic, modelled as `none`; otherwise the `(directory, name)` pair bound
in the `INSERT` is returned. -/
def add_file_args (p : RustPath) : Option (String × String) :=
  match p.parentP with
  | none => none
  | some par =>
    match par.toStrP with
    | none => none
    | some dir =>
      match p.fileNameP with
      | none => none
      | some comp =>
        match comp with
        | none => none
        | some name => some (dir, name)

/-- Keep the first element of each `key`-class, dropping every later element
whose key already occurred: the canonical first-occurrence filter used to
specify `pick_dups_for_rules`. -/
def dedupKeepFirstBy {α : Type} (key : α → String) : List α → List α
  | [] => []
  | x :: xs => x :: dedupKeepFirstBy key (xs.filter (fun y => key y ≠ key x))
termination_by l => l.length
decreasing_by
  have := List.length_filter_le (fun y => key y ≠ key x) xs
  simp only [List.length_cons]
  omega

/-- Does this `files` row qualify for the duplicate report: non-null strong
fingerprint shared by more than one row? -/
def qualifies (db : List FileRow) (r : FileRow) : Bool :=
  match r.slowhash with
  | some h => decide (1 < countHash db h)
  | none => false

/-- The query row a qualifying `files` row contributes. -/
def qrowOf (db : List FileRow) (r : FileRow) : QRow :=
  { path := r.path, fname := r.fname, slowhash := r.slowhash.getD "",
    p := countHash db (r.slowhash.getD ""), size := r.size }

/-- The duplicate group the scanner is expected to assemble for one shared
strong fingerprint: the pivot is the first joined row's rendered path, the
alternates are the remaining rows' paths, with the group's cardinality and
the first row's size. -/
def mkGroup (db : List FileRow) (h : String) : DupFile :=
  { one_path := ((groupRows db h).map (fun q => q.path ++ sep ++ q.fname)).headD ""
  , other_paths := ((groupRows db h).map (fun q => q.path ++ sep ++ q.fname)).tail
  , hash := h
  , num_dups := countHash db h
  , size := ((groupRows db h).map (fun q => q.size)).headD 0 }

/-- The duplicate group assembled from one contiguous block of query rows:
pivot from the first row, alternates from the rest. -/
def dupOfGroup : List QRow → DupFile
  | [] => ⟨"", [], "", 0, 0⟩
  | q :: t => ⟨q.path ++ sep ++ q.fname, t.map (fun x => x.path ++ sep ++ x.fname),
               q.slowhash, q.p, q.size⟩

/-- Equality of all `files` columns except the mutable `slowhash`. -/
def sameFields (a b : FileRow) : Prop :=
  a.rowid = b.rowid ∧ a.path = b.path ∧ a.fname = b.fname ∧
  a.fasthash = b.fasthash ∧ a.size = b.size

/-- `db'` extends `db`: no row of `db` was deleted, and each kept its
position and all its columns except possibly `slowhash`. -/
def ExtendsDB (dbNew dbOld : List FileRow) : Prop :=
  dbOld.length ≤ dbNew.length ∧
  ∀ k, (h₁ : k < dbOld.length) → (h₂ : k < dbNew.length) →
    sameFields (dbNew.get ⟨k, h₂⟩) (dbOld.get ⟨k, h₁⟩)

/-- Rowids are the 1-based positions (SQLite rowid order for a table built
by successive inserts). -/
def WFRowids (db : List FileRow) : Prop :=
  ∀ k, (h : k < db.length) → (db.get ⟨k, h⟩).rowid = k + 1

/-- Is the supplied default one of the two group-specific `KeepNamed`
variants rejected by `KeepStrategy::from_str`? -/
def namedDefault : Option KeepStrategy → Bool
  | some (.KEEP_THIS_OF_THESE _) => true
  | some (.KEEP_THIS_OF_ANY _) => true
  | _ => false

/-!  Concrete instances used to evaluate the model at specific inputs.
The hash parameters are instantiated with test hashers in the spirit of the
spec's S2 scenario: a fast fingerprint that depends only on the length
modulo 2^16 (so equal-sized files collide), and an injective strong digest
(the byte list rendered as text). -/

/-- Test fast hasher: length modulo 2^16 (collides on equal-length files). -/
def hashLen : List Nat → String := fun l => toString (l.length % 65536)

/-- Totally colliding test fast hasher: constant. -/
def hashConst : List Nat → String := fun _ => "00"

/-- Test strong hasher: the byte list rendered (injective). -/
def hashBytes : List Nat → String := fun l => toString l

/-- Two-tier mode, forced buffered reads (`-r`), 8-byte read buffer. -/
def cfgForceRead : Cfg := ⟨false, true, false, 8⟩

/-- Two-tier mode, memory maps succeed, 8-byte read buffer. -/
def cfgMmap : Cfg := ⟨false, false, true, 8⟩

/-- Two-tier mode, forced buffered reads with a 1-byte buffer. -/
def cfgBuf1 : Cfg := ⟨false, true, false, 1⟩

/-- Two files with different one-byte contents (hence colliding `hashLen`
fast fingerprints). -/
def fsTwoCollide : String → Option RFile := fun p =>
  if p = "/a/x" then some ⟨[1], none⟩
  else if p = "/a/y" then some ⟨[2], none⟩
  else none

/-- Three files with pairwise different contents, all colliding under
`hashConst`. -/
def fsThree : String → Option RFile := fun p =>
  if p = "/a/x" then some ⟨[1], none⟩
  else if p = "/a/y" then some ⟨[2], none⟩
  else if p = "/a/z" then some ⟨[3], none⟩
  else none

/-- A filesystem where `/a/bad` opens fine but fails on the second read
(mid-stream I/O error), and `/a/good` is readable. -/
def fsReadErr : String → Option RFile := fun p =>
  if p = "/a/bad" then some ⟨[5, 6], some 1⟩
  else if p = "/a/good" then some ⟨[7], none⟩
  else none

/-- A decision provider that always answers `a` (keep all). -/
def chA : Nat → List Char := fun _ => "a".data

/-- Three duplicate groups: two sharing the `("/a","/b")` directory
signature, one entirely inside `/c` (single-directory). -/
def dupsW : List DupFile :=
  [⟨"/a/x1", ["/b/y1"], "h1", 2, 1⟩,
   ⟨"/a/x2", ["/b/y2"], "h2", 2, 1⟩,
   ⟨"/c/z1", ["/c/z2"], "h3", 2, 1⟩]

/-! ## Theorems -/

/-- **C1.** In two-tier mode, when a new file's fast fingerprint collides
with an existing catalogue row, the spec requires the new row's stored
strong fingerprint to equal the strong digest of the new file's *entire*
content in both I/O paths.  The code violates this in the forced
buffered-read path: the strong hash reuses the file handle already consumed
by the fast hash without rewinding it, so the stored value is the digest of
the *empty* byte sequence.  The memory-mapped path stores the correct
digest.  (`hashBytes []` renders as `"[]"`, `hashBytes [2]` as `"[2]"`.) -/
theorem c1_forced_read_breaks_strong_digest :
    indexFiles hashLen hashBytes cfgForceRead fsTwoCollide [] [] ["/a/x", "/a/y"]
      = .ok ([⟨1, "/a", "x", some "1", some (hashBytes [1]), 1⟩,
              ⟨2, "/a", "y", some "1", some (hashBytes []), 1⟩],
             [(1, hashBytes [1])])
    ∧ hashBytes [] ≠ hashBytes [2]
    ∧ indexFiles hashLen hashBytes cfgMmap fsTwoCollide [] [] ["/a/x", "/a/y"]
      = .ok ([⟨1, "/a", "x", some "1", some (hashBytes [1]), 1⟩,
              ⟨2, "/a", "y", some "1", some (hashBytes [2]), 1⟩],
             [(1, hashBytes [1])]) :=
  ⟨rfl, by decide, rfl⟩

/-- **C2 (counterexample).** A mid-stream read failure on `/a/bad` is not
reported-and-skipped: the `expect("error reading file!")` panic aborts the
whole indexing pass (the following file `/a/good` is never reached and no
rows survive, the transaction being uncommitted), contradicting the claim
that the file is skipped and the pass continues. -/
theorem c2_read_error_aborts_pass :
    indexFiles hashLen hashBytes cfgBuf1 fsReadErr [] [] ["/a/bad", "/a/good"]
      = .error "error reading file!"
    ∧ hash_and_store hashLen hashBytes cfgBuf1 fsReadErr [] "/a/bad"
      ≠ .ok .skipped := by
  refine ⟨rfl, ?_⟩
  rw [show hash_and_store hashLen hashBytes cfgBuf1 fsReadErr [] "/a/bad"
        = .error "error reading file!" from rfl]
  exact fun h => Except.noConfusion h

/-- **C2 (amended).** What the code actually does with per-file I/O errors
during an indexing pass: an `open` failure is reported and the file skipped
with no row persisted, the pass continuing; but a failure of a `read` on an
already-open file is fatal — the panic propagates and aborts the pass. -/
theorem c2_amended_open_skip_read_fatal (fastH strongH : List Nat → String)
    (cfg : Cfg) (fs : String → Option RFile) (db : List FileRow) (p : String) :
    (fs p = none → hash_and_store fastH strongH cfg fs db p = .ok .skipped)
    ∧ (∀ f e, fs p = some f → cfg.only_slowhash = false → cfg.force_read = true →
        readLoopGo f cfg.bufsz f.content.length 0 [] = .error e →
        hash_and_store fastH strongH cfg fs db p = .error e) := by
  constructor
  · intro h
    simp [hash_and_store, h]
  · intro f e hf hsl hfr hloop
    simp [hash_and_store, hf, hsl, hash_filehandle, hfr, hloop]

/-- Witness for `c2_amended_open_skip_read_fatal` at concrete inputs: a path
that fails to open is skipped; `/a/bad` (read error at offset 1, 1-byte
buffer) aborts. -/
theorem c2_amended_witness :
    (fsReadErr "/nope" = none
      ∧ hash_and_store hashLen hashBytes cfgBuf1 fsReadErr [] "/nope" = .ok .skipped)
    ∧ (fsReadErr "/a/bad" = some ⟨[5, 6], some 1⟩
      ∧ cfgBuf1.only_slowhash = false
      ∧ cfgBuf1.force_read = true
      ∧ readLoopGo ⟨[5, 6], some 1⟩ cfgBuf1.bufsz 2 0 [] = .error "error reading file!"
      ∧ hash_and_store hashLen hashBytes cfgBuf1 fsReadErr [] "/a/bad"
        = .error "error reading file!") := by
  refine ⟨⟨rfl, ?_⟩, rfl, rfl, rfl, rfl, ?_⟩
  · exact (c2_amended_open_skip_read_fatal hashLen hashBytes cfgBuf1 fsReadErr []
      "/nope").1 rfl
  · exact (c2_amended_open_skip_read_fatal hashLen hashBytes cfgBuf1 fsReadErr []
      "/a/bad").2 ⟨[5, 6], some 1⟩ "error reading file!" rfl rfl rfl rfl

/-- **C9 (counterexample).** The claim requires the index of choice `b` to
satisfy `1 ≤ N`; the code only checks `idx > max_idx`, so `"b 0"` is
accepted and `KEEP_THIS_OF_THESE 0` returned, although `1 ≤ 0` fails. -/
theorem c9_zero_index_accepted :
    keep_from_str ("b 0".data) 5 none = .ok (.KEEP_THIS_OF_THESE 0)
    ∧ ¬(1 ≤ 0) :=
  ⟨rfl, by decide⟩

/-- A successful `^x ([0-9]+)` match pins the first character. -/
theorem matchLetterIdx_head {letter : Char} {s : List Char} {n : Nat}
    (h : matchLetterIdx letter s = some n) : headChar s = letter := by
  match s with
  | [] => simp [matchLetterIdx] at h
  | [c] => simp [matchLetterIdx] at h
  | [c, c2] => simp [matchLetterIdx] at h
  | c :: c2 :: d :: rest =>
    simp only [matchLetterIdx] at h
    by_cases hc : (c = letter && c2 = ' ' && d.isDigit) = true
    · have hc2 : (c = letter ∧ c2 = ' ') ∧ d.isDigit = true := by
        simpa [Bool.and_eq_true] using hc
      simp [headChar, hc2.1.1]
    · simp [hc] at h

/-- With a non-`KeepNamed` default, `from_str` is the regex cascade. -/
theorem keep_from_str_eq_keepParse {d : Option KeepStrategy}
    (hd : namedDefault d = false) (s : List Char) (max_idx : Nat) :
    keep_from_str s max_idx d = keepParse s max_idx d := by
  match d with
  | none => rfl
  | some .KEEP_AS_IS => rfl
  | some (.KEEP_THIS_OF_THESE i) => simp [namedDefault] at hd
  | some (.KEEP_THIS_OF_ANY i) => simp [namedDefault] at hd
  | some .KEEP_ANY_ONE => rfl
  | some .KEEP_OLDEST => rfl
  | some .KEEP_NEWEST => rfl

/-- **C9 (amended).** `KeepStrategy::from_str` maps the single-letter
choices to their variants, rejects the two `KeepNamed` variants as defaults,
bounds a captured index only from above — the parse succeeds whenever
`N ≤ max_idx`, with `N = 0` accepted (the claim's lower bound `1 ≤ N` is not
enforced) — and an unrecognised choice yields the caller's default, or an
error without one. -/
theorem c9_amended_from_str_characterisation (s : List Char) (max_idx : Nat)
    (d : Option KeepStrategy) :
    (namedDefault d = true → ∃ e, keep_from_str s max_idx d = .error e)
    ∧ (namedDefault d = false →
        ((headChar s = 'a' → keep_from_str s max_idx d = .ok .KEEP_AS_IS)
        ∧ (∀ n, matchLetterIdx 'b' s = some n →
            keep_from_str s max_idx d =
              if max_idx < n then .error "Invalid index for Keep This of These strategy"
              else .ok (.KEEP_THIS_OF_THESE n))
        ∧ (∀ n, matchLetterIdx 'c' s = some n →
            keep_from_str s max_idx d =
              if max_idx < n then .error "Invalid index for Keep This Of Any strategy"
              else .ok (.KEEP_THIS_OF_ANY n))
        ∧ (headChar s = 'd' → keep_from_str s max_idx d = .ok .KEEP_ANY_ONE)
        ∧ (headChar s = 'e' → keep_from_str s max_idx d = .ok .KEEP_OLDEST)
        ∧ (headChar s = 'f' → keep_from_str s max_idx d = .ok .KEEP_NEWEST)
        ∧ (headChar s ≠ 'a' → headChar s ≠ 'd' → headChar s ≠ 'e' → headChar s ≠ 'f' →
            matchLetterIdx 'b' s = none → matchLetterIdx 'c' s = none →
            keep_from_str s max_idx d =
              (match d with
               | none => .error "No default keep strategy set"
               | some t => .ok t)))) := by
  constructor
  · intro hd
    match d with
    | some (.KEEP_THIS_OF_THESE i) =>
      exact ⟨_, rfl⟩
    | some (.KEEP_THIS_OF_ANY i) =>
      exact ⟨_, rfl⟩
    | none => simp [namedDefault] at hd
    | some .KEEP_AS_IS => simp [namedDefault] at hd
    | some .KEEP_ANY_ONE => simp [namedDefault] at hd
    | some .KEEP_OLDEST => simp [namedDefault] at hd
    | some .KEEP_NEWEST => simp [namedDefault] at hd
  · intro hd
    rw [keep_from_str_eq_keepParse hd]
    refine ⟨?_, ?_, ?_, ?_, ?_, ?_, ?_⟩
    · intro ha
      simp [keepParse, ha]
    · intro n hb
      have hhead := matchLetterIdx_head hb
      have ha : ¬(headChar s = 'a') := by rw [hhead]; decide
      simp [keepParse, ha, hb]
    · intro n hc
      have hhead := matchLetterIdx_head hc
      have ha : ¬(headChar s = 'a') := by rw [hhead]; decide
      have hb : matchLetterIdx 'b' s = none := by
        cases hmb : matchLetterIdx 'b' s with
        | none => rfl
        | some k =>
          have := matchLetterIdx_head hmb
          rw [hhead] at this
          exact absurd this (by decide)
      simp [keepParse, ha, hb, hc]
    · intro hdd
      have ha : ¬(headChar s = 'a') := by rw [hdd]; decide
      have hb : matchLetterIdx 'b' s = none := by
        cases hmb : matchLetterIdx 'b' s with
        | none => rfl
        | some k => exact absurd (hdd ▸ matchLetterIdx_head hmb) (by decide)
      have hc : matchLetterIdx 'c' s = none := by
        cases hmc : matchLetterIdx 'c' s with
        | none => rfl
        | some k => exact absurd (hdd ▸ matchLetterIdx_head hmc) (by decide)
      simp [keepParse, ha, hb, hc, hdd]
    · intro hde
      have ha : ¬(headChar s = 'a') := by rw [hde]; decide
      have hb : matchLetterIdx 'b' s = none := by
        cases hmb : matchLetterIdx 'b' s with
        | none => rfl
        | some k => exact absurd (hde ▸ matchLetterIdx_head hmb) (by decide)
      have hc : matchLetterIdx 'c' s = none := by
        cases hmc : matchLetterIdx 'c' s with
        | none => rfl
        | some k => exact absurd (hde ▸ matchLetterIdx_head hmc) (by decide)
      have hdd : ¬(headChar s = 'd') := by rw [hde]; decide
      simp [keepParse, ha, hb, hc, hdd, hde]
    · intro hdf
      have ha : ¬(headChar s = 'a') := by rw [hdf]; decide
      have hb : matchLetterIdx 'b' s = none := by
        cases hmb : matchLetterIdx 'b' s with
        | none => rfl
        | some k => exact absurd (hdf ▸ matchLetterIdx_head hmb) (by decide)
      have hc : matchLetterIdx 'c' s = none := by
        cases hmc : matchLetterIdx 'c' s with
        | none => rfl
        | some k => exact absurd (hdf ▸ matchLetterIdx_head hmc) (by decide)
      have hdd : ¬(headChar s = 'd') := by rw [hdf]; decide
      have hde : ¬(headChar s = 'e') := by rw [hdf]; decide
      simp [keepParse, ha, hb, hc, hdd, hde, hdf]
    · intro ha hdd hde hdf hb hc
      simp [keepParse, ha, hb, hc, hdd, hde, hdf]

/-- Witness for `c9_amended_from_str_characterisation`: the `b`-branch at
`"b 2"` with `max_idx = 3` and default `KEEP_AS_IS`. -/
theorem c9_amended_witness :
    namedDefault (some .KEEP_AS_IS) = false
    ∧ matchLetterIdx 'b' ("b 2".data) = some 2
    ∧ keep_from_str ("b 2".data) 3 (some .KEEP_AS_IS)
        = .ok (.KEEP_THIS_OF_THESE 2) := by
  refine ⟨rfl, by decide, ?_⟩
  have h := (((c9_amended_from_str_characterisation ("b 2".data) 3
      (some .KEEP_AS_IS)).2 rfl).2.1) 2 (by decide)
  rw [if_neg (by decide)] at h
  exact h

/-- The implementation version's high-byte mask value. -/
theorem db_version_masked : DB_VERSION &&& 0xff00 = 0x0100 := by decide

/-- `is_compatible` tests exactly the major byte. -/
theorem is_compatible_iff (v : Nat) :
    is_compatible v = true ↔ v &&& 0xff00 = 0x0100 := by
  simp [is_compatible, db_version_masked]

/-- On an initialised catalogue without overwrite, `DataBase::new` is the
three-way config gate. -/
theorem DataBase_new_some_eq (c : StashConfig) (fsha lsl : Bool) :
    DataBase_new (some c) false fsha lsl =
      (if !is_compatible c.version then
        .error "stash file cannot be processed by this version of wfiles"
      else if fsha != c.force_sha512 then
        .error "stash file was generated under different force_sha512 setting (see -s option)"
      else if lsl != c.only_slowhash then
        .error "stash file was generated under different only_slowhash setting (see -l option)"
      else .ok c) := rfl

set_option maxRecDepth 4000 in
/-- **C4.** Opening an already-initialised catalogue writable without
overwrite succeeds exactly when the stored schema version's major byte
equals the implementation's (`0x01`) and both stored mode flags equal the
invocation's; the check happens before any mutation (the model returns an
error without touching anything).  Any stored minor byte is accepted when
the major byte matches. -/
theorem c4_config_gate :
    (∀ (c : StashConfig) (fsha lsl : Bool),
      (∃ cfg, DataBase_new (some c) false fsha lsl = .ok cfg) ↔
        (c.version &&& 0xff00 = 0x0100 ∧ c.force_sha512 = fsha ∧ c.only_slowhash = lsl))
    ∧ (∀ (m : Nat) (fsha lsl : Bool), m < 256 →
        DataBase_new (some ⟨0x0100 + m, fsha, lsl⟩) false fsha lsl
          = .ok ⟨0x0100 + m, fsha, lsl⟩) := by
  constructor
  · intro c fsha lsl
    rw [DataBase_new_some_eq]
    constructor
    · rintro ⟨cfg, hcfg⟩
      split at hcfg
      · simp at hcfg
      · next h1 =>
        split at hcfg
        · simp at hcfg
        · next h2 =>
          split at hcfg
          · simp at hcfg
          · next h3 =>
            have hcmp : is_compatible c.version = true := by
              cases hic : is_compatible c.version
              · exact absurd (by simp [hic]) h1
              · rfl
            refine ⟨(is_compatible_iff _).1 hcmp, ?_, ?_⟩
            · have h2p : fsha = c.force_sha512 := by
                by_contra hne
                exact h2 (bne_iff_ne.2 hne)
              exact h2p.symm
            · have h3p : lsl = c.only_slowhash := by
                by_contra hne
                exact h3 (bne_iff_ne.2 hne)
              exact h3p.symm
    · rintro ⟨hver, hf, hl⟩
      have h1 : is_compatible c.version = true := (is_compatible_iff c.version).2 hver
      exact ⟨c, by simp [h1, hf, hl]⟩
  · intro m fsha lsl hm
    have hland : (0x0100 + m) &&& 0xff00 = 0x0100 := by
      have hall : ∀ x, x < 256 → (0x0100 + x) &&& 0xff00 = 0x0100 := by decide
      exact hall m hm
    have h1 : is_compatible (0x0100 + m) = true := (is_compatible_iff _).2 hland
    rw [DataBase_new_some_eq]
    simp [h1]

/-- Witness for `c4_config_gate`: a stored config with minor byte `0x07` and
matching flags is accepted; one with `only_slowhash` flipped is not. -/
theorem c4_config_gate_witness :
    (7 : Nat) < 256
    ∧ DataBase_new (some ⟨0x0100 + 7, true, false⟩) false true false
        = .ok ⟨0x0100 + 7, true, false⟩
    ∧ ¬∃ cfg, DataBase_new (some ⟨0x0100, true, true⟩) false true false = .ok cfg := by
  refine ⟨by decide, ?_, ?_⟩
  · exact c4_config_gate.2 7 true false (by decide)
  · intro hok
    have h := (c4_config_gate.1 ⟨0x0100, true, true⟩ true false).1 hok
    simp at h
/-- `to_str` of a modelled path succeeds exactly when every component is
valid UTF-8. -/
theorem toStrP_isSome (abs : Bool) (xs : List (Option String)) :
    (RustPath.toStrP ⟨abs, xs⟩).isSome = xs.all Option.isSome := by
  by_cases h : xs.all Option.isSome = true
  · simp [RustPath.toStrP, h]
  · simp only [RustPath.toStrP]
    rw [if_neg (by simpa using h)]
    simp [Bool.eq_false_iff.2 h]

/-- `add_file_args` on a path with a final component, in terms of the parent
path's rendering and that component. -/
theorem add_file_args_concat (abs : Bool) (xs : List (Option String))
    (x : Option String) :
    add_file_args ⟨abs, xs ++ [x]⟩ =
      (match RustPath.toStrP ⟨abs, xs⟩, x with
       | some dir, some name => some (dir, name)
       | _, _ => none) := by
  simp only [add_file_args, RustPath.parentP, RustPath.fileNameP,
    List.dropLast_concat, List.getLast?_concat]
  rw [if_neg (by simp)]
  show (match RustPath.toStrP ⟨abs, xs⟩ with
        | none => none
        | some dir =>
          match x with
          | none => none
          | some name => some (dir, name)) = _
  cases RustPath.toStrP ⟨abs, xs⟩ <;> cases x <;> rfl

/-- **C10.** `FileInsertStatement::add_file` succeeds exactly on paths with
a final component and a parent, all of whose components are valid UTF-8
(Lean model: every `OsStr` component is `some`); on any other path —
including a bare root and paths with non-UTF-8 components in the name or
directory — the `unwrap`s panic (`none`) instead of returning an error. -/
theorem c10_add_file_panics_off_domain :
    (∀ p : RustPath, (add_file_args p).isSome = true ↔
      (p.comps ≠ [] ∧ p.comps.all Option.isSome = true))
    ∧ add_file_args ⟨true, []⟩ = none
    ∧ add_file_args ⟨false, [some "a", none]⟩ = none
    ∧ add_file_args ⟨true, [none, some "a"]⟩ = none := by
  refine ⟨?_, rfl, rfl, rfl⟩
  intro p
  obtain ⟨abs, comps⟩ := p
  induction comps using List.reverseRecOn with
  | nil =>
    simp [add_file_args, RustPath.parentP]
  | append_singleton xs x _ih =>
    rw [add_file_args_concat]
    have hts := toStrP_isSome abs xs
    cases hdir : RustPath.toStrP ⟨abs, xs⟩ <;> cases hx : x <;>
      rw [hdir] at hts <;>
      simp_all [List.all_append]

/-- On an error-free file with a positive buffer, the read loop consumes the
content from the current offset to the end (the declared size being the
content length). -/
theorem readLoopF_complete (f : RFile) (bufsz : Nat) (hb : 0 < bufsz)
    (hfail : f.failAt = none) :
    ∀ fuel pos acc, f.content.length - pos < fuel → pos ≤ f.content.length →
      readLoopF fuel f bufsz f.content.length pos acc
        = .ok (acc ++ f.content.drop pos, f.content.length) := by
  intro fuel
  induction fuel with
  | zero =>
    intro pos acc hfuel _
    omega
  | succ n ih =>
    intro pos acc hfuel hpos
    have hrf : f.readFails pos = false := by simp [RFile.readFails, hfail]
    have hn : (readChunk f bufsz pos).length = min bufsz (f.content.length - pos) := by
      simp [readChunk]
    simp only [readLoopF, hrf, Bool.false_eq_true, if_false]
    by_cases h0 : (readChunk f bufsz pos).length = 0
    · have hpl : pos = f.content.length := by omega
      rw [if_pos h0, hpl, List.drop_length, List.append_nil]
    · rw [if_neg h0]
      by_cases heq : (readChunk f bufsz pos).length = f.content.length
      · rw [if_pos heq]
        have hpos0 : pos = 0 := by omega
        have hblen : f.content.length ≤ bufsz := by omega
        have hchunk : readChunk f bufsz pos = f.content := by
          rw [hpos0]
          simp [readChunk, List.take_of_length_le hblen]
        rw [hchunk, hpos0]
        simp
      · rw [if_neg heq]
        rw [ih (pos + (readChunk f bufsz pos).length) (acc ++ readChunk f bufsz pos)
          (by omega) (by omega)]
        rw [List.append_assoc]
        have hjoin : readChunk f bufsz pos
            ++ f.content.drop (pos + (readChunk f bufsz pos).length)
            = f.content.drop pos := by
          by_cases hble : bufsz ≤ f.content.length - pos
          · have : (readChunk f bufsz pos).length = bufsz := by omega
            rw [this]
            exact List.drop_take_append_drop f.content pos bufsz
          · have hlen : (f.content.drop pos).length ≤ bufsz := by
              simp only [List.length_drop]
              omega
            have hch : readChunk f bufsz pos = f.content.drop pos := by
              simp [readChunk, List.take_of_length_le hlen]
            have hdr : f.content.drop (pos + (readChunk f bufsz pos).length) = [] := by
              apply List.drop_eq_nil_of_le
              omega
            rw [hdr, List.append_nil, hch]
        rw [hjoin]

/-- `hash_dbentry` on a readable, unchanged file computes the strong digest
of its entire content (in either I/O path). -/
theorem hash_dbentry_content (strongH : List Nat → String)
    (force_read mmapOk : Bool) (bufsz : Nat) (fs : String → Option RFile)
    (path fname : String) (fP : RFile)
    (hopen : fs (path ++ sep ++ fname) = some fP) (hfail : fP.failAt = none)
    (hb : 0 < bufsz) :
    hash_dbentry strongH force_read mmapOk bufsz fs path fname fP.content.length
      = .ok (strongH fP.content) := by
  simp only [hash_dbentry, hopen]
  by_cases hm : (!force_read && mmapOk) = true
  · simp [hash_filehandle, hm]
  · simp only [hash_filehandle, hm, Bool.false_eq_true, if_false]
    rw [show readLoopGo fP bufsz fP.content.length 0 []
          = .ok ([] ++ fP.content.drop 0, fP.content.length) from
        readLoopF_complete fP bufsz hb hfail (fP.content.length + 1) 0 []
          (by omega) (by omega)]
    simp

/-- Updating one row's `slowhash` does not change which `(path, fname)` keys
are present. -/
theorem any_key_updateSlowhash (db : List FileRow) (i : Nat) (d : String)
    (dir name : String) :
    (updateSlowhash db i d).any (fun r => r.path == dir && r.fname == name)
      = db.any (fun r => r.path == dir && r.fname == name) := by
  simp only [updateSlowhash, List.any_map]
  congr 1
  funext r
  by_cases hr : r.rowid = i <;> simp [hr]

/-- `updateSlowhash` preserves the table size. -/
theorem length_updateSlowhash (db : List FileRow) (i : Nat) (d : String) :
    (updateSlowhash db i d).length = db.length := by
  simp [updateSlowhash]

/-- **C3.** When the fast-fingerprint probe finds an existing row `r`
(the first `files` row with that `fasthash`), the lazy-promotion protocol
(i) re-opens the file at `r`'s stored `(directory, name)` with `r`'s stored
size, computes its strong digest and writes it into `r`'s `slowhash` column,
(ii) is fatal to the indexing call if that re-open fails (the error
propagates, nothing is silently skipped), and (iii) performs this update on
the table *before* the new row is inserted: the stored outcome is the
updated table with the new row appended after it. -/
theorem c3_collision_promotes_before_insert
    (strongH fastH : List Nat → String) (cfg : Cfg) (fs : String → Option RFile)
    (db : List FileRow) (fh : String) (r : FileRow)
    (hfind : db.find? (fun x => x.fasthash == some fh) = some r) :
    (∀ fP, fs (r.path ++ sep ++ r.fname) = some fP → fP.failAt = none →
      r.size = fP.content.length → 0 < cfg.bufsz →
      collision strongH cfg.force_read cfg.mmapOk cfg.bufsz fs db fh
        = .ok (updateSlowhash db r.rowid (strongH fP.content),
               [(r.rowid, strongH fP.content)], true))
    ∧ (fs (r.path ++ sep ++ r.fname) = none →
      collision strongH cfg.force_read cfg.mmapOk cfg.bufsz fs db fh
        = .error "error while accessing file for triggered slowhashing")
    ∧ (∀ p f fP dir name,
        fs p = some f → cfg.only_slowhash = false → cfg.force_read = false →
        cfg.mmapOk = true → fastH f.content = fh →
        fs (r.path ++ sep ++ r.fname) = some fP → fP.failAt = none →
        r.size = fP.content.length → 0 < cfg.bufsz →
        rustParent p = some dir → rustFileName p = some name →
        db.any (fun x => x.path == dir && x.fname == name) = false →
        hash_and_store fastH strongH cfg fs db p
          = .ok (.stored
              (updateSlowhash db r.rowid (strongH fP.content)
                ++ [⟨db.length + 1, dir, name, some fh, some (strongH f.content),
                     f.content.length⟩])
              [(r.rowid, strongH fP.content)])) := by
  refine ⟨?_, ?_, ?_⟩
  · intro fP hopen hfail hsz hb
    simp only [collision, hfind]
    rw [hsz, hash_dbentry_content strongH cfg.force_read cfg.mmapOk cfg.bufsz fs
      r.path r.fname fP hopen hfail hb]
  · intro hopen
    simp only [collision, hfind, hash_dbentry, hopen]
  · intro p f fP dir name hfp hsl hfr hmm hfast hopen hfail hsz hb hpar hnam hdup
    have hcoll : collision strongH cfg.force_read cfg.mmapOk cfg.bufsz fs db fh
        = .ok (updateSlowhash db r.rowid (strongH fP.content),
               [(r.rowid, strongH fP.content)], true) := by
      simp only [collision, hfind]
      rw [hsz, hash_dbentry_content strongH cfg.force_read cfg.mmapOk cfg.bufsz fs
        r.path r.fname fP hopen hfail hb]
    have hmmap : (!cfg.force_read && cfg.mmapOk) = true := by
      rw [hfr, hmm]
      rfl
    simp only [hash_and_store, hfp, hsl, Bool.false_eq_true, if_false,
      hash_filehandle, hmmap, if_true, hfast, hcoll, if_pos]
    simp only [addFileRow, hpar, hnam, any_key_updateSlowhash, hdup,
      Bool.false_eq_true, if_false, length_updateSlowhash]

/-- Witness for `c3_collision_promotes_before_insert`: a one-row catalogue
whose row collides with `/a/y` under the length fast hash; promotion updates
row 1 and then inserts row 2. -/
theorem c3_witness :
    ([⟨1, "/a", "x", some "1", none, 1⟩] : List FileRow).find?
        (fun x => x.fasthash == some "1") = some ⟨1, "/a", "x", some "1", none, 1⟩
    ∧ collision hashBytes cfgMmap.force_read cfgMmap.mmapOk cfgMmap.bufsz fsTwoCollide
        [⟨1, "/a", "x", some "1", none, 1⟩] "1"
        = .ok ([⟨1, "/a", "x", some "1", some (hashBytes [1]), 1⟩],
               [(1, hashBytes [1])], true)
    ∧ hash_and_store hashLen hashBytes cfgMmap fsTwoCollide
        [⟨1, "/a", "x", some "1", none, 1⟩] "/a/y"
        = .ok (.stored [⟨1, "/a", "x", some "1", some (hashBytes [1]), 1⟩,
                        ⟨2, "/a", "y", some "1", some (hashBytes [2]), 1⟩]
               [(1, hashBytes [1])]) := by
  have h := c3_collision_promotes_before_insert hashBytes hashLen cfgMmap fsTwoCollide
      [⟨1, "/a", "x", some "1", none, 1⟩] "1" ⟨1, "/a", "x", some "1", none, 1⟩ rfl
  refine ⟨rfl, ?_, ?_⟩
  · exact h.1 ⟨[1], none⟩ rfl rfl rfl (by decide)
  · exact h.2.2 "/a/y" ⟨[2], none⟩ ⟨[1], none⟩ "/a" "y" rfl rfl rfl rfl rfl rfl rfl
      rfl (by decide) rfl rfl rfl

/-- Removing consecutive duplicates preserves membership. -/
theorem mem_dedupConsec {α : Type} [DecidableEq α] (x : α) :
    ∀ l : List α, x ∈ dedupConsec l ↔ x ∈ l
  | [] => by simp [dedupConsec]
  | [a] => by simp [dedupConsec]
  | a :: b :: rest => by
    by_cases hab : a = b
    · rw [show dedupConsec (a :: b :: rest) = dedupConsec (b :: rest) by
        simp [dedupConsec, hab]]
      rw [mem_dedupConsec x (b :: rest)]
      subst hab
      simp
    · rw [show dedupConsec (a :: b :: rest) = a :: dedupConsec (b :: rest) by
        simp [dedupConsec, hab]]
      simp only [List.mem_cons, mem_dedupConsec x (b :: rest)]

/-- On a sorted list, removing consecutive duplicates yields a list without
duplicates. -/
theorem dedupConsec_nodup :
    ∀ {l : List String}, l.Sorted (fun a b => a ≤ b) → (dedupConsec l).Nodup
  | [], _ => by simp [dedupConsec]
  | [a], _ => by simp [dedupConsec]
  | a :: b :: rest, h => by
    have htl : (b :: rest).Sorted (fun a b => a ≤ b) := h.of_cons
    by_cases hab : a = b
    · rw [show dedupConsec (a :: b :: rest) = dedupConsec (b :: rest) by
        simp [dedupConsec, hab]]
      exact dedupConsec_nodup htl
    · rw [show dedupConsec (a :: b :: rest) = a :: dedupConsec (b :: rest) by
        simp [dedupConsec, hab]]
      refine List.nodup_cons.mpr ⟨?_, dedupConsec_nodup htl⟩
      intro hmem
      rw [mem_dedupConsec] at hmem
      rcases List.mem_cons.mp hmem with hmem | hmem
      · exact hab hmem
      · have hba : b ≤ a := List.rel_of_sorted_cons htl a hmem
        have hab2 : a ≤ b := List.rel_of_sorted_cons h b (by simp)
        exact hab (le_antisymm hab2 hba)

/-- `sortStrings` sorts. -/
theorem sortStrings_sorted (l : List String) :
    (sortStrings l).Sorted (fun a b => a ≤ b) :=
  List.sorted_insertionSort _ l

/-- `sortStrings` permutes. -/
theorem sortStrings_perm (l : List String) : List.Perm (sortStrings l) l :=
  List.perm_insertionSort _ l

/-- Sorting is a canonical form: permuted inputs sort identically. -/
theorem sortStrings_eq_of_perm {l₁ l₂ : List String} (h : List.Perm l₁ l₂) :
    sortStrings l₁ = sortStrings l₂ :=
  List.eq_of_perm_of_sorted
    ((sortStrings_perm l₁).trans (h.trans (sortStrings_perm l₂).symm))
    (sortStrings_sorted l₁) (sortStrings_sorted l₂)

/-- A filter by a disjunction of disjoint predicates splits, up to
permutation, into the two filters. -/
theorem filter_or_perm {α : Type} (l : List α) (p q : α → Bool)
    (hdisj : ∀ x, ¬(p x = true ∧ q x = true)) :
    List.Perm (l.filter (fun x => p x || q x)) (l.filter p ++ l.filter q) := by
  induction l with
  | nil => simp
  | cons a tl ih =>
    by_cases hpa : p a = true
    · have hqa : ¬(q a = true) := fun hq => hdisj a ⟨hpa, hq⟩
      rw [List.filter_cons_of_pos (by simp [hpa]), List.filter_cons_of_pos hpa,
          List.filter_cons_of_neg hqa, List.cons_append]
      exact ih.cons a
    · by_cases hqa : q a = true
      · rw [List.filter_cons_of_pos (by simp [hqa]), List.filter_cons_of_neg hpa,
            List.filter_cons_of_pos hqa]
        exact (ih.cons a).trans List.perm_middle.symm
      · rw [List.filter_cons_of_neg (by simp [Bool.eq_false_iff.mpr hpa,
              Bool.eq_false_iff.mpr hqa]),
            List.filter_cons_of_neg hpa, List.filter_cons_of_neg hqa]
        exact ih

/-- Concatenating the per-fingerprint row groups of pairwise distinct
fingerprints is, up to permutation, one filter over the table. -/
theorem flatMap_filter_perm (db : List FileRow) :
    ∀ hs : List String, hs.Nodup →
      List.Perm (hs.flatMap (fun h => db.filter (fun r => r.slowhash == some h)))
        (db.filter (fun r => hs.any (fun h => r.slowhash == some h)))
  | [], _ => by simp
  | h :: hs, hnd => by
    have hnotin : h ∉ hs := (List.nodup_cons.mp hnd).1
    have ih := flatMap_filter_perm db hs (List.nodup_cons.mp hnd).2
    have hsplit := filter_or_perm db (fun r => r.slowhash == some h)
      (fun r => hs.any (fun g => r.slowhash == some g))
      (by
        intro r ⟨h1, h2⟩
        rw [beq_iff_eq] at h1
        rcases List.any_eq_true.mp h2 with ⟨g, hg, hrg⟩
        rw [beq_iff_eq, h1, Option.some_inj] at hrg
        exact hnotin (hrg ▸ hg))
    have hpred : db.filter (fun r => (h :: hs).any (fun g => r.slowhash == some g))
        = db.filter (fun r =>
            (r.slowhash == some h) || hs.any (fun g => r.slowhash == some g)) := by
      apply List.filter_congr
      intro r _
      simp [List.any_cons]
    rw [List.flatMap_cons, hpred]
    exact ((List.Perm.append_left _ ih)).trans hsplit.symm

/-- Membership in the subquery's fingerprint list is exactly the
shared-by-two-rows condition. -/
theorem mem_dupHashes (db : List FileRow) (h : String) :
    h ∈ dupHashes db ↔ 1 < countHash db h := by
  constructor
  · intro hmem
    rcases List.mem_filter.mp hmem with ⟨-, hcount⟩
    simpa using hcount
  · intro hcount
    apply List.mem_filter.mpr
    refine ⟨?_, by simpa using hcount⟩
    rw [mem_dedupConsec, (sortStrings_perm _).mem_iff, List.mem_filterMap]
    have hpos : 0 < (db.filter (fun r => r.slowhash == some h)).length := by
      unfold countHash at hcount
      omega
    rcases List.exists_mem_of_length_pos hpos with ⟨r, hr⟩
    rcases List.mem_filter.mp hr with ⟨hrdb, hrh⟩
    exact ⟨r, hrdb, by simpa using hrh⟩

/-- The group of one fingerprint has the group cardinality as its length. -/
theorem groupRows_length (db : List FileRow) (h : String) :
    (groupRows db h).length = countHash db h := by
  simp [groupRows, countHash]

/-- Every row of a fingerprint's group carries that fingerprint and the
group cardinality. -/
theorem groupRows_fields (db : List FileRow) (h : String) :
    ∀ q ∈ groupRows db h, q.slowhash = h ∧ q.p = countHash db h := by
  intro q hq
  rcases List.mem_map.mp hq with ⟨r, -, hr⟩
  rw [← hr]
  exact ⟨rfl, rfl⟩

/-- Pushing a path into the last group of a snoc-shaped accumulator. -/
theorem appendToLast_concat (v : List DupFile) (d : DupFile) (p : String) :
    appendToLast (v ++ [d]) p
      = v ++ [{ d with other_paths := d.other_paths ++ [p] }] := by
  induction v with
  | nil => rfl
  | cons a tl ih =>
    cases tl with
    | nil => rfl
    | cons b tl2 =>
      show a :: appendToLast ((b :: tl2) ++ [d]) p = _
      rw [ih]
      rfl

/-- Consuming the alternate rows of one group: starting mid-group with
`t.length` rows still expected, the loop appends each row's rendered path to
the last group and finishes the group exactly at the end of `t`. -/
theorem getDupsGo_tail :
    ∀ (t rest : List QRow) (v : List DupFile) (d : DupFile), t ≠ [] →
      getDupsGo (t ++ rest) false t.length (v ++ [d])
        = getDupsGo rest true 0
            (v ++ [{ d with other_paths :=
                d.other_paths ++ t.map (fun q => q.path ++ sep ++ q.fname) }])
  | [], _, _, _, ht => absurd rfl ht
  | [x], rest, v, d, _ => by
    show getDupsGo (x :: rest) false 1 (v ++ [d]) = _
    simp only [getDupsGo, Bool.false_eq_true, if_false]
    rw [appendToLast_concat]
    norm_num
  | x :: y :: t3, rest, v, d, _ => by
    have hone : ∀ (row : QRow) (rest2 : List QRow) (n : Nat) (w : List DupFile),
        getDupsGo (row :: rest2) false (n + 2) w
          = getDupsGo rest2 false (n + 1)
              (appendToLast w (row.path ++ sep ++ row.fname)) := by
      intro row rest2 n w
      simp only [getDupsGo, Bool.false_eq_true, if_false]
      rw [show n + 2 - 1 = n + 1 from rfl]
      rw [if_neg (by omega)]
    rw [show ((x :: y :: t3) ++ rest) = x :: ((y :: t3) ++ rest) from rfl]
    rw [show (x :: y :: t3).length = t3.length + 2 from rfl]
    rw [hone x ((y :: t3) ++ rest) t3.length (v ++ [d])]
    rw [appendToLast_concat]
    rw [show t3.length + 1 = (y :: t3).length from rfl]
    rw [getDupsGo_tail (y :: t3) rest v
      { d with other_paths := d.other_paths ++ [x.path ++ sep ++ x.fname] }
      (by simp)]
    simp

/-- Consuming one whole group whose rows all carry the group's length as
cardinality: the loop emits exactly the assembled group and returns to the
start state. -/
theorem getDupsGo_group (g rest : List QRow) (v : List DupFile) (rem0 : Nat)
    (hlen : 2 ≤ g.length) (hp : ∀ q ∈ g, q.p = g.length) :
    getDupsGo (g ++ rest) true rem0 v
      = getDupsGo rest true 0 (v ++ [dupOfGroup g]) := by
  obtain ⟨q, t, rfl⟩ : ∃ q t, g = q :: t := by
    cases g with
    | nil => simp at hlen
    | cons q t => exact ⟨q, t, rfl⟩
  have hq : q.p = t.length + 1 := by simpa using hp q (by simp)
  have ht : t ≠ [] := by
    intro h
    subst h
    simp at hlen
  rw [show ((q :: t) ++ rest) = q :: (t ++ rest) from rfl]
  simp only [getDupsGo, if_pos]
  rw [hq]
  rw [show t.length + 1 - 1 = t.length by omega]
  rw [getDupsGo_tail t rest v
    ⟨q.path ++ sep ++ q.fname, [], q.slowhash, t.length + 1, q.size⟩ ht]
  simp [dupOfGroup, hq]

/-- Consuming a concatenation of groups, one per fingerprint. -/
theorem getDupsGo_flatMap (db : List FileRow) :
    ∀ hs : List String, (∀ h ∈ hs, 2 ≤ countHash db h) → ∀ v : List DupFile,
      getDupsGo (hs.flatMap (groupRows db)) true 0 v
        = v ++ hs.map (fun h => dupOfGroup (groupRows db h))
  | [], _, v => by simp [getDupsGo]
  | h :: hs, hcnt, v => by
    rw [List.flatMap_cons]
    rw [getDupsGo_group (groupRows db h) (hs.flatMap (groupRows db)) v 0
      (by rw [groupRows_length]; exact hcnt h (by simp))
      (by
        intro q hq
        rw [groupRows_length]
        exact (groupRows_fields db h q hq).2)]
    rw [getDupsGo_flatMap db hs (fun g hg => hcnt g (by simp [hg]))]
    simp

/-- Each fingerprint's group, rewritten through the row projection. -/
theorem groupRows_eq_map_qrowOf (db : List FileRow) (h : String) :
    groupRows db h = (db.filter (fun r => r.slowhash == some h)).map (qrowOf db) := by
  unfold groupRows
  apply List.map_congr_left
  intro r hr
  rcases List.mem_filter.mp hr with ⟨-, hrh⟩
  rw [beq_iff_eq] at hrh
  simp [qrowOf, hrh]

/-- **C5.** The duplicate scanner: (i) the query returns, up to order,
exactly the `files` rows whose non-null strong fingerprint is shared by at
least two rows — every matching row represented, no others; (ii) rows of a
group are contiguous: the returned fingerprint column is a concatenation of
constant blocks, one per qualifying fingerprint (each of the group's
cardinality), the block fingerprints pairwise distinct; (iii) `get_dups`
assembles one group per fingerprint by consuming exactly `cardinality` rows:
the first row's `directory + separator + name` becomes the pivot path, the
remaining rows the alternates, with the shared hash, cardinality and size. -/
theorem c5_dup_scanner (db : List FileRow) :
    List.Perm (dupQueryRows db) ((db.filter (qualifies db)).map (qrowOf db))
    ∧ (dupQueryRows db).map (fun q => q.slowhash)
        = (dupHashes db).flatMap (fun h => List.replicate (countHash db h) h)
    ∧ (dupHashes db).Nodup
    ∧ get_dups (dupQueryRows db) = (dupHashes db).map (mkGroup db) := by
  have hnd : (dupHashes db).Nodup :=
    (dedupConsec_nodup (sortStrings_sorted _)).filter _
  refine ⟨?_, ?_, hnd, ?_⟩
  · have hflat : dupQueryRows db
        = ((dupHashes db).flatMap
            (fun h => db.filter (fun r => r.slowhash == some h))).map (qrowOf db) := by
      unfold dupQueryRows
      rw [List.map_flatMap]
      congr 1
      funext h
      exact groupRows_eq_map_qrowOf db h
    rw [hflat]
    refine ((flatMap_filter_perm db (dupHashes db) hnd).map (qrowOf db)).trans ?_
    have hfeq : db.filter (fun r => (dupHashes db).any (fun h => r.slowhash == some h))
        = db.filter (qualifies db) := by
      apply List.filter_congr
      intro r _
      cases hr : r.slowhash with
      | none =>
        simp [qualifies, hr]
      | some hh =>
        rw [Bool.eq_iff_iff]
        simp only [qualifies, hr, List.any_eq_true, decide_eq_true_eq, beq_iff_eq,
          Option.some_inj]
        constructor
        · rintro ⟨g, hg, hgh⟩
          exact (mem_dupHashes db hh).1 (hgh ▸ hg)
        · intro hcnt
          exact ⟨hh, (mem_dupHashes db hh).2 hcnt, rfl⟩
    rw [hfeq]
  · have hrep : ∀ h : String,
        (groupRows db h).map (fun q => q.slowhash)
          = List.replicate (countHash db h) h := by
      intro h
      unfold groupRows
      rw [List.map_map]
      rw [show ((fun q : QRow => q.slowhash) ∘ (fun r : FileRow =>
          ({ path := r.path, fname := r.fname, slowhash := h,
             p := countHash db h, size := r.size } : QRow))) = fun _ => h from rfl]
      rw [List.map_const']
      rfl
    unfold dupQueryRows
    rw [List.map_flatMap]
    simp only [hrep]
  · have hdup : ∀ h ∈ dupHashes db, dupOfGroup (groupRows db h) = mkGroup db h := by
      intro h hh
      have hcnt : 1 < countHash db h := (mem_dupHashes db h).1 hh
      cases hgr2 : groupRows db h with
      | nil =>
        exfalso
        have hl := groupRows_length db h
        rw [hgr2] at hl
        simp at hl
        omega
      | cons q t =>
        have hf := groupRows_fields db h q (by rw [hgr2]; simp)
        simp [mkGroup, dupOfGroup, hgr2, hf.1, hf.2]
    show get_dups (dupQueryRows db) = _
    unfold get_dups dupQueryRows
    rw [getDupsGo_flatMap db (dupHashes db)
      (fun h hh => by
        have := (mem_dupHashes db h).1 hh
        omega) []]
    rw [List.nil_append]
    exact List.map_congr_left hdup

/-- A nonempty list keeps at least one element through consecutive
deduplication. -/
theorem dedupConsec_ne_nil {α : Type} [DecidableEq α] :
    ∀ {l : List α}, l ≠ [] → dedupConsec l ≠ []
  | [], h => absurd rfl h
  | [a], _ => by simp [dedupConsec]
  | a :: b :: rest, _ => by
    by_cases hab : a = b
    · rw [show dedupConsec (a :: b :: rest) = dedupConsec (b :: rest) by
        simp [dedupConsec, hab]]
      exact dedupConsec_ne_nil (l := b :: rest) (by simp)
    · rw [show dedupConsec (a :: b :: rest) = a :: dedupConsec (b :: rest) by
        simp [dedupConsec, hab]]
      simp

/-- A group's directory signature always lists at least one directory. -/
theorem sigDirs_ne_nil (d : DupFile) : sigDirs d ≠ [] := by
  unfold sigDirs
  apply dedupConsec_ne_nil
  intro hnil
  have := (sortStrings_perm (dirOf d.one_path :: d.other_paths.map dirOf)).length_eq
  rw [hnil] at this
  simp at this

/-- One unfolding step of the first-occurrence filter. -/
theorem dedupKeepFirstBy_cons {α : Type} (key : α → String) (a : α) (l : List α) :
    dedupKeepFirstBy key (a :: l)
      = a :: dedupKeepFirstBy key (l.filter (fun y => key y ≠ key a)) := by
  simp [dedupKeepFirstBy]

/-- The first-occurrence filter only keeps elements of its input. -/
theorem mem_of_mem_dedupKeepFirstBy {α : Type} (key : α → String) :
    ∀ (n : Nat) (l : List α), l.length ≤ n →
      ∀ x, x ∈ dedupKeepFirstBy key l → x ∈ l
  | 0, l, hl, x => by
    have hnil : l = [] := List.eq_nil_of_length_eq_zero (by omega)
    subst hnil
    simp [dedupKeepFirstBy]
  | n + 1, l, hl, x => by
    cases l with
    | nil => simp [dedupKeepFirstBy]
    | cons a tl =>
      rw [dedupKeepFirstBy_cons]
      intro hx
      rcases List.mem_cons.mp hx with hx | hx
      · simp [hx]
      · have hlen : (tl.filter (fun y => key y ≠ key a)).length ≤ n :=
          le_trans (List.length_filter_le _ _) (by simpa using hl)
        have hmem := mem_of_mem_dedupKeepFirstBy key n _ hlen x hx
        exact List.mem_cons_of_mem a (List.mem_of_mem_filter hmem)

/-- The retained elements have pairwise distinct keys. -/
theorem nodup_keys_dedupKeepFirstBy {α : Type} (key : α → String) :
    ∀ (n : Nat) (l : List α), l.length ≤ n →
      ((dedupKeepFirstBy key l).map key).Nodup
  | 0, l, hl => by
    have hnil : l = [] := List.eq_nil_of_length_eq_zero (by omega)
    subst hnil
    simp [dedupKeepFirstBy]
  | n + 1, l, hl => by
    cases l with
    | nil => simp [dedupKeepFirstBy]
    | cons a tl =>
      rw [dedupKeepFirstBy_cons, List.map_cons]
      have hlen : (tl.filter (fun y => key y ≠ key a)).length ≤ n :=
        le_trans (List.length_filter_le _ _) (by simpa using hl)
      refine List.nodup_cons.mpr ⟨?_, nodup_keys_dedupKeepFirstBy key n _ hlen⟩
      intro hmem
      rcases List.mem_map.mp hmem with ⟨y, hy, hky⟩
      have hyin := mem_of_mem_dedupKeepFirstBy key n _ hlen y hy
      rcases List.mem_filter.mp hyin with ⟨-, hne⟩
      have hne2 : key y ≠ key a := by simpa using hne
      exact hne2 hky

/-- The accumulator-and-seen loop of `pick_dups_for_rules` equals the
canonical first-occurrence filter of the multi-directory groups not yet
seen. -/
theorem pickDupsGo_spec :
    ∀ (l : List DupFile) (seen : List String) (acc : List DupFile),
      pickDupsGo l seen acc
        = acc ++ dedupKeepFirstBy (fun d => joinKey (sigDirs d))
            (l.filter (fun d =>
              decide ((sigDirs d).length ≠ 1 ∧ joinKey (sigDirs d) ∉ seen)))
  | [], seen, acc => by simp [pickDupsGo, dedupKeepFirstBy]
  | d :: l, seen, acc => by
    by_cases h1 : (sigDirs d).length = 1
    · rw [show pickDupsGo (d :: l) seen acc = pickDupsGo l seen acc by
        simp [pickDupsGo, h1]]
      rw [pickDupsGo_spec l seen acc]
      rw [List.filter_cons_of_neg (by simp [h1])]
    · by_cases h2 : joinKey (sigDirs d) ∈ seen
      · rw [show pickDupsGo (d :: l) seen acc = pickDupsGo l seen acc by
          simp [pickDupsGo, h1, h2]]
        rw [pickDupsGo_spec l seen acc]
        rw [List.filter_cons_of_neg (by simp [h2])]
      · rw [show pickDupsGo (d :: l) seen acc
            = pickDupsGo l (joinKey (sigDirs d) :: seen) (acc ++ [d]) by
          simp [pickDupsGo, h1, h2]]
        rw [pickDupsGo_spec l (joinKey (sigDirs d) :: seen) (acc ++ [d])]
        rw [List.filter_cons_of_pos (by simp [h1, h2])]
        rw [dedupKeepFirstBy_cons]
        rw [List.filter_filter]
        have hpred : ∀ y ∈ l,
            (decide (joinKey (sigDirs y) ≠ joinKey (sigDirs d))
              && decide ((sigDirs y).length ≠ 1 ∧ joinKey (sigDirs y) ∉ seen))
            = decide ((sigDirs y).length ≠ 1
                ∧ joinKey (sigDirs y) ∉ joinKey (sigDirs d) :: seen) := by
          intro y _
          rcases Decidable.em ((sigDirs y).length = 1) with hy1 | hy1 <;>
            rcases Decidable.em (joinKey (sigDirs y) ∈ seen) with hy2 | hy2 <;>
            rcases Decidable.em (joinKey (sigDirs y) = joinKey (sigDirs d)) with hy3 | hy3 <;>
            simp [hy1, hy2, hy3]
        rw [List.filter_congr hpred]
        simp

/-- `pick_dups_for_rules` retains exactly the first group per distinct
multi-directory signature, in input order. -/
theorem pick_dups_spec (dups : List DupFile) :
    pick_dups_for_rules dups
      = dedupKeepFirstBy (fun d => joinKey (sigDirs d))
          (dups.filter (fun d => decide ((sigDirs d).length ≠ 1))) := by
  unfold pick_dups_for_rules
  rw [pickDupsGo_spec dups [] []]
  rw [List.nil_append]
  congr 1
  apply List.filter_congr
  intro d _
  simp

/-- The rule-collection loop: on success the emitted association list is the
accumulator followed by one entry per retained group, keyed by its signature
and carrying its directory list. -/
theorem collectGo_spec (choices : Nat → List Char) :
    ∀ (cs : List DupFile) (idx : Nat) (acc rules : List (String × DirBasedPruneRule)),
      collectGo choices cs idx acc = .ok rules →
      rules.map Prod.fst
          = acc.map Prod.fst ++ cs.map (fun c => joinKey (sigDirs c))
      ∧ ∀ kr ∈ rules, kr ∈ acc ∨
          ∃ c ∈ cs, kr.1 = joinKey (sigDirs c) ∧ kr.2.paths = sigDirs c
  | [], idx, acc, rules => by
    intro hrun
    have hacc : rules = acc := by
      simpa [collectGo] using hrun.symm
    subst hacc
    exact ⟨by simp, fun kr hkr => Or.inl hkr⟩
  | c :: cs, idx, acc, rules => by
    intro hrun
    simp only [collectGo] at hrun
    cases hparse : keep_from_str (choices idx) (sigDirs c).length
        (some .KEEP_AS_IS) with
    | error e =>
      rw [hparse] at hrun
      exact absurd hrun (by simp)
    | ok verdict =>
      rw [hparse] at hrun
      have ih := collectGo_spec choices cs (idx + 1)
        (acc ++ [(joinKey (sigDirs c), ⟨verdict, sigDirs c⟩)]) rules hrun
      refine ⟨?_, ?_⟩
      · rw [ih.1]
        simp
      · intro kr hkr
        rcases ih.2 kr hkr with hin | ⟨c2, hc2, hk⟩
        · rcases List.mem_append.mp hin with hin | hin
          · exact Or.inl hin
          · rcases List.mem_singleton.mp hin with rfl
            exact Or.inr ⟨c, by simp, rfl, rfl⟩
        · exact Or.inr ⟨c2, by simp [hc2], hk⟩

/-- **C7.** On success, `collect_dup_path_rules` emits an insertion-ordered
map whose keys are pairwise distinct directory signatures; groups whose
deduplicated signature has a single directory are skipped and only the first
group per distinct signature is retained (the key sequence equals the
first-occurrence filter of the multi-directory groups, in input order); and
every emitted rule binds its signature key to a directory list of at least
two directories, the key being exactly that list comma-joined. -/
theorem c7_prune_rules (choices : Nat → List Char) (dups : List DupFile)
    (rules : List (String × DirBasedPruneRule))
    (hrun : collect_dup_path_rules choices dups = .ok rules) :
    (rules.map Prod.fst).Nodup
    ∧ rules.map Prod.fst
        = (dedupKeepFirstBy (fun d => joinKey (sigDirs d))
            (dups.filter (fun d => decide ((sigDirs d).length ≠ 1)))).map
            (fun d => joinKey (sigDirs d))
    ∧ pick_dups_for_rules dups
        = dedupKeepFirstBy (fun d => joinKey (sigDirs d))
            (dups.filter (fun d => decide ((sigDirs d).length ≠ 1)))
    ∧ (∀ kr ∈ rules, 2 ≤ kr.2.paths.length ∧ kr.1 = joinKey kr.2.paths) := by
  unfold collect_dup_path_rules at hrun
  have hspec := collectGo_spec choices (pick_dups_for_rules dups) 1 [] rules hrun
  have hpick := pick_dups_spec dups
  have hkeys : rules.map Prod.fst
      = (pick_dups_for_rules dups).map (fun c => joinKey (sigDirs c)) := by
    rw [hspec.1]
    simp
  refine ⟨?_, ?_, hpick, ?_⟩
  · rw [hkeys, hpick]
    exact nodup_keys_dedupKeepFirstBy _ _ _ le_rfl
  · rw [hkeys, hpick]
  · intro kr hkr
    rcases hspec.2 kr hkr with hin | ⟨c, hc, hk1, hk2⟩
    · simp at hin
    · have hcf : c ∈ dups.filter (fun d => decide ((sigDirs d).length ≠ 1)) := by
        rw [hpick] at hc
        exact mem_of_mem_dedupKeepFirstBy _ _ _ le_rfl c hc
      rcases List.mem_filter.mp hcf with ⟨-, hlen⟩
      have hne1 : (sigDirs c).length ≠ 1 := by simpa using hlen
      have hnn : sigDirs c ≠ [] := sigDirs_ne_nil c
      have hpos : 0 < (sigDirs c).length := List.length_pos.mpr hnn
      constructor
      · rw [hk2]
        omega
      · rw [hk1, hk2]

/-- Witness for `c7_prune_rules`: the three-group input consolidates to a
single rule keyed `"/a,/b"`. -/
theorem c7_witness :
    collect_dup_path_rules chA dupsW
      = .ok [("/a,/b", ⟨.KEEP_AS_IS, ["/a", "/b"]⟩)]
    ∧ (([("/a,/b", (⟨.KEEP_AS_IS, ["/a", "/b"]⟩ : DirBasedPruneRule))].map
        Prod.fst).Nodup) := by
  refine ⟨rfl, ?_⟩
  exact (c7_prune_rules chA dupsW [("/a,/b", ⟨.KEEP_AS_IS, ["/a", "/b"]⟩)] rfl).1

/-- **C8.** `DupFile::path_sig` equals the sorted, deduplicated,
comma-joined list of the parent directories of the group's paths, and is
invariant under every permutation of the group's paths across
`(one_path, other_paths)`: permuting which path is the pivot and the order
of the alternates yields the identical key string (the hash, cardinality
and size fields play no role). -/
theorem c8_path_sig_canonical (p₁ p₂ : String) (o₁ o₂ : List String)
    (g₁ g₂ : String) (n₁ n₂ sz₁ sz₂ : Nat)
    (hperm : List.Perm (p₁ :: o₁) (p₂ :: o₂)) :
    DupFile.path_sig ⟨p₁, o₁, g₁, n₁, sz₁⟩ = DupFile.path_sig ⟨p₂, o₂, g₂, n₂, sz₂⟩
    ∧ DupFile.path_sig ⟨p₁, o₁, g₁, n₁, sz₁⟩
        = joinKey (dedupConsec (sortStrings ((p₁ :: o₁).map dirOf))) := by
  refine ⟨?_, rfl⟩
  have hm := hperm.map dirOf
  rw [List.map_cons, List.map_cons] at hm
  show joinKey (dedupConsec (sortStrings (dirOf p₁ :: o₁.map dirOf)))
      = joinKey (dedupConsec (sortStrings (dirOf p₂ :: o₂.map dirOf)))
  rw [sortStrings_eq_of_perm hm]

/-- Witness for `c8_path_sig_canonical`: swapping pivot and alternate of a
two-path group leaves the signature unchanged. -/
theorem c8_witness :
    List.Perm ["/a/x", "/b/y"] ["/b/y", "/a/x"]
    ∧ DupFile.path_sig ⟨"/a/x", ["/b/y"], "h", 2, 4⟩
        = DupFile.path_sig ⟨"/b/y", ["/a/x"], "h", 2, 4⟩ := by
  have hp : List.Perm ["/a/x", "/b/y"] ["/b/y", "/a/x"] :=
    List.Perm.swap "/b/y" "/a/x" []
  exact ⟨hp,
    (c8_path_sig_canonical "/a/x" "/b/y" ["/b/y"] ["/a/x"] "h" "h" 2 2 4 4 hp).1⟩

/-- **C6 (counterexample).** Three files all colliding on the fast
fingerprint: the probe always selects the *first* matching row, so row 1's
`slowhash` column is written by an `UPDATE` once when `/a/y` is indexed and
*again* when `/a/z` is indexed — the update log carries two events for
rowid 1, refuting "no later record-file operation updates that row's
strong_fp again". -/
theorem c6_first_row_promoted_twice :
    indexFiles hashConst hashBytes cfgMmap fsThree [] [] ["/a/x", "/a/y", "/a/z"]
      = .ok ([⟨1, "/a", "x", some "00", some (hashBytes [1]), 1⟩,
              ⟨2, "/a", "y", some "00", some (hashBytes [2]), 1⟩,
              ⟨3, "/a", "z", some "00", some (hashBytes [3]), 1⟩],
             [(1, hashBytes [1]), (1, hashBytes [1])])
    ∧ (([(1, hashBytes [1]), (1, hashBytes [1])] : List (Nat × String)).filter
        (fun e => e.1 == 1)).length = 2 :=
  ⟨rfl, rfl⟩

/-- `sameFields` is reflexive. -/
theorem sameFields_refl (r : FileRow) : sameFields r r :=
  ⟨rfl, rfl, rfl, rfl, rfl⟩

/-- `sameFields` is transitive. -/
theorem sameFields_trans {a b c : FileRow} (h₁ : sameFields a b)
    (h₂ : sameFields b c) : sameFields a c :=
  ⟨h₁.1.trans h₂.1, h₁.2.1.trans h₂.2.1, h₁.2.2.1.trans h₂.2.2.1,
   h₁.2.2.2.1.trans h₂.2.2.2.1, h₁.2.2.2.2.trans h₂.2.2.2.2⟩

/-- `ExtendsDB` is reflexive. -/
theorem extendsDB_refl (db : List FileRow) : ExtendsDB db db :=
  ⟨le_rfl, fun k h₁ h₂ => by rw [show h₁ = h₂ from rfl]; exact sameFields_refl _⟩

/-- `ExtendsDB` composes. -/
theorem extendsDB_trans {a b c : List FileRow} (h₁ : ExtendsDB b a)
    (h₂ : ExtendsDB c b) : ExtendsDB c a := by
  refine ⟨le_trans h₁.1 h₂.1, ?_⟩
  intro k hk₁ hk₂
  have hkb : k < b.length := lt_of_lt_of_le hk₁ h₁.1
  exact sameFields_trans (h₂.2 k hkb hk₂) (h₁.2 k hk₁ hkb)

/-- The `slowhash` update keeps every row in place with all other columns
unchanged. -/
theorem updateSlowhash_extends (db : List FileRow) (i : Nat) (d : String) :
    ExtendsDB (updateSlowhash db i d) db := by
  refine ⟨by simp [updateSlowhash], ?_⟩
  intro k h₁ h₂
  have hg : (updateSlowhash db i d).get ⟨k, h₂⟩
      = if (db.get ⟨k, h₁⟩).rowid = i
        then { db.get ⟨k, h₁⟩ with slowhash := some d } else db.get ⟨k, h₁⟩ := by
    simp [updateSlowhash, List.get_eq_getElem, List.getElem_map]
  rw [hg]
  split <;> simp [sameFields]

/-- Appending rows keeps every existing row in place and unchanged. -/
theorem append_extends (db ext : List FileRow) : ExtendsDB (db ++ ext) db := by
  refine ⟨by simp, ?_⟩
  intro k h₁ h₂
  have hg : (db ++ ext).get ⟨k, h₂⟩ = db.get ⟨k, h₁⟩ := by
    simp [List.get_eq_getElem, List.getElem_append_left, h₁]
  rw [hg]
  exact sameFields_refl _

/-- A successful insert appends exactly one fresh row. -/
theorem addFileRow_ok {db : List FileRow} {p : String}
    {q s : Option String} {sz : Nat} {db₂ : List FileRow}
    (h : addFileRow db p q s sz = .ok db₂) :
    ∃ dir name, db₂ = db ++ [⟨db.length + 1, dir, name, q, s, sz⟩] := by
  unfold addFileRow at h
  cases hpar : rustParent p with
  | none =>
    rw [hpar] at h
    have h2 : (Except.error ("INSERT for file " ++ p) :
        Except String (List FileRow)) = .ok db₂ := h
    exact absurd h2 (by simp)
  | some dir =>
    cases hnam : rustFileName p with
    | none =>
      rw [hpar, hnam] at h
      have h2 : (Except.error ("INSERT for file " ++ p) :
          Except String (List FileRow)) = .ok db₂ := h
      exact absurd h2 (by simp)
    | some name =>
      rw [hpar, hnam] at h
      have h2 : (if db.any (fun r => r.path == dir && r.fname == name) = true
          then (Except.error ("INSERT for file " ++ p) : Except String (List FileRow))
          else Except.ok (db ++ [⟨db.length + 1, dir, name, q, s, sz⟩]))
          = .ok db₂ := h
      by_cases hdup : db.any (fun r => r.path == dir && r.fname == name) = true
      · rw [if_pos hdup] at h2
        exact absurd h2 (by simp)
      · rw [if_neg hdup] at h2
        exact ⟨dir, name, by simpa using h2.symm⟩

/-- Inverting a successful collision probe. -/
theorem collision_ok {strongH : List Nat → String} {fr mok : Bool} {bs : Nat}
    {fs : String → Option RFile} {db db₁ : List FileRow} {fh : String}
    {events : List (Nat × String)} {collided : Bool}
    (h : collision strongH fr mok bs fs db fh = .ok (db₁, events, collided)) :
    (db₁ = db ∧ events = []) ∨
    ∃ r, db.find? (fun x => x.fasthash == some fh) = some r ∧
      ∃ dg, hash_dbentry strongH fr mok bs fs r.path r.fname r.size = .ok dg ∧
        db₁ = updateSlowhash db r.rowid dg ∧ events = [(r.rowid, dg)] := by
  unfold collision at h
  cases hfind : db.find? (fun x => x.fasthash == some fh) with
  | none =>
    rw [hfind] at h
    have h2 : (Except.ok (db, ([] : List (Nat × String)), false) :
        Except String (List FileRow × List (Nat × String) × Bool))
        = .ok (db₁, events, collided) := h
    simp only [Except.ok.injEq, Prod.mk.injEq] at h2
    exact Or.inl ⟨h2.1.symm, h2.2.1.symm⟩
  | some r =>
    rw [hfind] at h
    have h2 : (match hash_dbentry strongH fr mok bs fs r.path r.fname r.size with
        | Except.error e => (Except.error e :
            Except String (List FileRow × List (Nat × String) × Bool))
        | Except.ok digest =>
            Except.ok (updateSlowhash db r.rowid digest, [(r.rowid, digest)], true))
        = .ok (db₁, events, collided) := h
    cases hdg : hash_dbentry strongH fr mok bs fs r.path r.fname r.size with
    | error e =>
      rw [hdg] at h2
      exact absurd h2 (by simp)
    | ok dg =>
      rw [hdg] at h2
      simp only [Except.ok.injEq, Prod.mk.injEq] at h2
      exact Or.inr ⟨r, rfl, dg, hdg, h2.1.symm, h2.2.1.symm⟩

/-- Position transported through an extension keeps its identifying
fields. -/
theorem extends_get {dbB dbA : List FileRow} (h : ExtendsDB dbB dbA) (k : Nat)
    (hk : k < dbA.length) :
    ∃ hk2 : k < dbB.length, sameFields (dbB.get ⟨k, hk2⟩) (dbA.get ⟨k, hk⟩) :=
  ⟨lt_of_lt_of_le hk h.1, h.2 k hk (lt_of_lt_of_le hk h.1)⟩

/-- An update event located in a table stays located, with the same row
identity and recomputed digest, in any extension of that table. -/
theorem event_transport {strongH : List Nat → String} {fr mok : Bool} {bs : Nat}
    {fs : String → Option RFile} {dbB dbA : List FileRow}
    (hext : ExtendsDB dbB dbA) {i : Nat} {d : String}
    (h : ∃ k, ∃ hk : k < dbA.length, (dbA.get ⟨k, hk⟩).rowid = i
        ∧ hash_dbentry strongH fr mok bs fs (dbA.get ⟨k, hk⟩).path
            (dbA.get ⟨k, hk⟩).fname (dbA.get ⟨k, hk⟩).size = .ok d) :
    ∃ k, ∃ hk2 : k < dbB.length, (dbB.get ⟨k, hk2⟩).rowid = i
        ∧ hash_dbentry strongH fr mok bs fs (dbB.get ⟨k, hk2⟩).path
            (dbB.get ⟨k, hk2⟩).fname (dbB.get ⟨k, hk2⟩).size = .ok d := by
  obtain ⟨k, hk, hrow, hdg⟩ := h
  obtain ⟨hk2, hsf⟩ := extends_get hext k hk
  obtain ⟨h1, h2, h3, -, h5⟩ := hsf
  exact ⟨k, hk2, by rw [h1, hrow], by rw [h2, h3, h5]; exact hdg⟩

/-- Updating a `slowhash` leaves all rowids at their positions. -/
theorem wfRowids_updateSlowhash (db : List FileRow) (i : Nat) (d : String)
    (h : WFRowids db) : WFRowids (updateSlowhash db i d) := by
  intro k hk
  have hk1 : k < db.length := by simpa [updateSlowhash] using hk
  obtain ⟨hk2, hsf⟩ := extends_get (updateSlowhash_extends db i d) k hk1
  exact hsf.1.trans (h k hk1)

/-- Appending a row with the next rowid preserves position-indexed
rowids. -/
theorem wfRowids_append (db : List FileRow) (r : FileRow)
    (hr : r.rowid = db.length + 1) (h : WFRowids db) : WFRowids (db ++ [r]) := by
  intro k hk
  have hk2 : k < db.length + 1 := by simpa using hk
  by_cases hkd : k < db.length
  · have hg : (db ++ [r]).get ⟨k, hk⟩ = db.get ⟨k, hkd⟩ := by
      simp [List.get_eq_getElem, List.getElem_append_left, hkd]
    rw [hg]
    exact h k hkd
  · have hke : k = db.length := by omega
    subst hke
    have hg : (db ++ [r]).get ⟨db.length, hk⟩ = r := by
      simp [List.get_eq_getElem]
    rw [hg, hr]

/-- After a collision probe followed by the insert of one fresh row, the
table extends the original, rowids stay positional, and every update event
is located at a row of the new table whose stored identity re-derives the
written digest. -/
theorem stored_of_collision_insert
    {strongH : List Nat → String} {fr mok : Bool} {bs : Nat}
    {fs : String → Option RFile} {db db₁ db₂ : List FileRow} {fh : String}
    {events : List (Nat × String)} {collided : Bool}
    (hcol : collision strongH fr mok bs fs db fh = .ok (db₁, events, collided))
    (hdb2 : ∃ dir name q2 s2 sz2,
      db₂ = db₁ ++ [⟨db₁.length + 1, dir, name, q2, s2, sz2⟩]) :
    ExtendsDB db₂ db
    ∧ (WFRowids db → WFRowids db₂)
    ∧ ∀ i d, (i, d) ∈ events → ∃ k, ∃ hk : k < db₂.length,
        (db₂.get ⟨k, hk⟩).rowid = i
        ∧ hash_dbentry strongH fr mok bs fs (db₂.get ⟨k, hk⟩).path
            (db₂.get ⟨k, hk⟩).fname (db₂.get ⟨k, hk⟩).size = .ok d := by
  obtain ⟨dir, name, q2, s2, sz2, rfl⟩ := hdb2
  rcases collision_ok hcol with ⟨heqdb, heqev⟩ | ⟨r, hfind, dg, hdg, heqdb, heqev⟩
  · rw [heqdb, heqev]
    refine ⟨append_extends db _, fun hwf => wfRowids_append db _ rfl hwf, ?_⟩
    intro i d hmem
    simp at hmem
  · rw [heqdb, heqev]
    refine ⟨extendsDB_trans (updateSlowhash_extends db r.rowid dg)
      (append_extends _ _), ?_, ?_⟩
    · intro hwf
      exact wfRowids_append _ _ rfl (wfRowids_updateSlowhash db r.rowid dg hwf)
    · intro i d hmem
      simp only [List.mem_singleton, Prod.mk.injEq] at hmem
      obtain ⟨rfl, rfl⟩ := hmem
      have hrmem : r ∈ db := List.mem_of_find?_eq_some hfind
      rcases List.mem_iff_get.mp hrmem with ⟨⟨k, hk⟩, hg⟩
      have hbase : ∃ k, ∃ hk : k < db.length, (db.get ⟨k, hk⟩).rowid = r.rowid
          ∧ hash_dbentry strongH fr mok bs fs (db.get ⟨k, hk⟩).path
              (db.get ⟨k, hk⟩).fname (db.get ⟨k, hk⟩).size = .ok d :=
        ⟨k, hk, by rw [hg], by rw [hg]; exact hdg⟩
      exact event_transport (extendsDB_trans (updateSlowhash_extends db r.rowid d)
        (append_extends _ _)) hbase

/-- One `hash_and_store` step that stores a row: the table extends the old
one, positional rowids are preserved, and each logged update is located in
the new table with its digest re-derivable from the row's stored identity. -/
theorem hash_and_store_step {fastH strongH : List Nat → String} {cfg : Cfg}
    {fs : String → Option RFile} {db db' : List FileRow} {p : String}
    {events : List (Nat × String)}
    (h : hash_and_store fastH strongH cfg fs db p = .ok (.stored db' events)) :
    ExtendsDB db' db
    ∧ (WFRowids db → WFRowids db')
    ∧ ∀ i d, (i, d) ∈ events → ∃ k, ∃ hk : k < db'.length,
        (db'.get ⟨k, hk⟩).rowid = i
        ∧ hash_dbentry strongH cfg.force_read cfg.mmapOk cfg.bufsz fs
            (db'.get ⟨k, hk⟩).path (db'.get ⟨k, hk⟩).fname (db'.get ⟨k, hk⟩).size
          = .ok d := by
  unfold hash_and_store at h
  split at h
  · simp at h
  · split at h
    · split at h
      · simp at h
      · split at h
        · simp at h
        · rename_i db₂ haf
          simp only [Except.ok.injEq, StoreOutcome.stored.injEq] at h
          obtain ⟨rfl, rfl⟩ := h
          obtain ⟨dir, name, rfl⟩ := addFileRow_ok haf
          refine ⟨append_extends db _, fun hwf => wfRowids_append db _ rfl hwf, ?_⟩
          intro i d hmem
          simp at hmem
    · split at h
      · simp at h
      · rename_i q pos₁ hfq
        split at h
        · simp at h
        · rename_i db₁ events₁ collided hcol
          split at h
          · split at h
            · simp at h
            · split at h
              · simp at h
              · rename_i db₂ haf
                simp only [Except.ok.injEq, StoreOutcome.stored.injEq] at h
                obtain ⟨rfl, rfl⟩ := h
                obtain ⟨dir, name, rfl⟩ := addFileRow_ok haf
                exact stored_of_collision_insert hcol ⟨dir, name, _, _, _, rfl⟩
          · split at h
            · simp at h
            · rename_i db₂ haf
              simp only [Except.ok.injEq, StoreOutcome.stored.injEq] at h
              obtain ⟨rfl, rfl⟩ := h
              obtain ⟨dir, name, rfl⟩ := addFileRow_ok haf
              exact stored_of_collision_insert hcol ⟨dir, name, _, _, _, rfl⟩

/-- Run-level invariant of the indexing loop: the final table extends the
starting one, positional rowids are preserved, and every logged update is
either inherited from the starting log or locatable in the final table with
a digest re-derivable from that row's stored identity fields. -/
theorem indexFiles_spec {fastH strongH : List Nat → String} {cfg : Cfg}
    {fs : String → Option RFile} :
    ∀ (ps : List String) (db : List FileRow) (log : List (Nat × String))
      {dbF : List FileRow} {logF : List (Nat × String)},
    indexFiles fastH strongH cfg fs db log ps = .ok (dbF, logF) →
    ExtendsDB dbF db
    ∧ (WFRowids db → WFRowids dbF)
    ∧ ∀ i d, (i, d) ∈ logF → (i, d) ∈ log ∨ ∃ k, ∃ hk : k < dbF.length,
        (dbF.get ⟨k, hk⟩).rowid = i
        ∧ hash_dbentry strongH cfg.force_read cfg.mmapOk cfg.bufsz fs
            (dbF.get ⟨k, hk⟩).path (dbF.get ⟨k, hk⟩).fname (dbF.get ⟨k, hk⟩).size
          = .ok d := by
  intro ps
  induction ps with
  | nil =>
    intro db log dbF logF h
    simp only [indexFiles, Except.ok.injEq, Prod.mk.injEq] at h
    obtain ⟨rfl, rfl⟩ := h
    exact ⟨extendsDB_refl db, id, fun i d hm => Or.inl hm⟩
  | cons p ps ih =>
    intro db log dbF logF h
    unfold indexFiles at h
    split at h
    · simp at h
    · exact ih db log h
    · rename_i db₁ events heq
      obtain ⟨hext₁, hwf₁, hloc₁⟩ := hash_and_store_step heq
      obtain ⟨hext₂, hwf₂, hloc₂⟩ := ih db₁ (log ++ events) h
      refine ⟨extendsDB_trans hext₁ hext₂, fun hwf => hwf₂ (hwf₁ hwf), ?_⟩
      intro i d hm
      rcases hloc₂ i d hm with hin | hloc
      · rcases List.mem_append.1 hin with hl | he
        · exact Or.inl hl
        · exact Or.inr (event_transport hext₂ (hloc₁ i d he))
      · exact Or.inr hloc

/-- **C6 (amended).** After the `dup` pass's lazy promotion, a row's
`strong_fp` may be written more than once (each fast-fingerprint collision
with that row re-promotes it), but every write to a given rowid stores the
same value: the digest is recomputed from the row's immutable stored
directory, name and size against the unchanged filesystem, rows are never
deleted and their identity columns are never modified, so repeated updates
of one row are idempotent. -/
theorem c6_amended {fastH strongH : List Nat → String} {cfg : Cfg}
    {fs : String → Option RFile} {ps : List String}
    {dbF : List FileRow} {logF : List (Nat × String)}
    (hrun : indexFiles fastH strongH cfg fs [] [] ps = .ok (dbF, logF)) :
    WFRowids dbF
    ∧ (∀ i d, (i, d) ∈ logF → ∃ k, ∃ hk : k < dbF.length,
        (dbF.get ⟨k, hk⟩).rowid = i
        ∧ hash_dbentry strongH cfg.force_read cfg.mmapOk cfg.bufsz fs
            (dbF.get ⟨k, hk⟩).path (dbF.get ⟨k, hk⟩).fname (dbF.get ⟨k, hk⟩).size
          = .ok d)
    ∧ ∀ i d₁ d₂, (i, d₁) ∈ logF → (i, d₂) ∈ logF → d₁ = d₂ := by
  obtain ⟨hext, hwf, hloc⟩ := indexFiles_spec ps [] [] hrun
  have hwfF : WFRowids dbF := hwf (fun k hk => by simp at hk)
  have hlocF : ∀ i d, (i, d) ∈ logF → ∃ k, ∃ hk : k < dbF.length,
      (dbF.get ⟨k, hk⟩).rowid = i
      ∧ hash_dbentry strongH cfg.force_read cfg.mmapOk cfg.bufsz fs
          (dbF.get ⟨k, hk⟩).path (dbF.get ⟨k, hk⟩).fname (dbF.get ⟨k, hk⟩).size
        = .ok d := by
    intro i d hm
    rcases hloc i d hm with hin | hl
    · simp at hin
    · exact hl
  refine ⟨hwfF, hlocF, ?_⟩
  intro i d₁ d₂ h1 h2
  obtain ⟨k1, hk1, hr1, hd1⟩ := hlocF i d₁ h1
  obtain ⟨k2, hk2, hr2, hd2⟩ := hlocF i d₂ h2
  have e1 := hwfF k1 hk1
  have e2 := hwfF k2 hk2
  have hkk : k1 = k2 := by omega
  subst hkk
  have : Except.ok (ε := String) d₁ = Except.ok d₂ := hd1.symm.trans hd2
  exact Except.ok.inj this

/-- Witness for the amended C6 at a concrete three-file run in which the
first row really is promoted twice: both logged updates for rowid 1 carry
the same digest. -/
theorem c6_amended_witness :
    indexFiles hashConst hashBytes cfgMmap fsThree [] [] ["/a/x", "/a/y", "/a/z"]
      = .ok ([⟨1, "/a", "x", some "00", some (hashBytes [1]), 1⟩,
              ⟨2, "/a", "y", some "00", some (hashBytes [2]), 1⟩,
              ⟨3, "/a", "z", some "00", some (hashBytes [3]), 1⟩],
             [(1, hashBytes [1]), (1, hashBytes [1])])
    ∧ ∀ i d₁ d₂, (i, d₁) ∈ [(1, hashBytes [1]), (1, hashBytes [1])] →
        (i, d₂) ∈ [(1, hashBytes [1]), (1, hashBytes [1])] → d₁ = d₂ :=
  ⟨rfl, (c6_amended (show
      indexFiles hashConst hashBytes cfgMmap fsThree [] [] ["/a/x", "/a/y", "/a/z"]
        = .ok ([⟨1, "/a", "x", some "00", some (hashBytes [1]), 1⟩,
                ⟨2, "/a", "y", some "00", some (hashBytes [2]), 1⟩,
                ⟨3, "/a", "z", some "00", some (hashBytes [3]), 1⟩],
               [(1, hashBytes [1]), (1, hashBytes [1])]) from rfl)).2.2⟩

end WFiles
